import Mathlib

/-!
Verification of the asset-replication module (`cognite/replicator/assets.py`).

The Python module is shallowly embedded: pure helpers become Lean
functions, the destination CDF project becomes an explicit `Store` state,
Python dictionaries become association lists, and fallible operations
(dictionary bracket access, `int(...)` parsing) return `Except`/`Option`.
Collaborators from `replication.py` (which is not part of the sources,
only imported) are modelled from the specification; each such definition
carries a doc comment starting with `Modelled from the spec:`.
-/

set_option maxHeartbeats 1000000

namespace Replicator

/-! ## Association lists (Python `dict` embedding)

Python dictionaries preserve insertion order; assignment to an existing
key updates the value in place, assignment to a fresh key appends.
`alookup` is bracket access returning `Option` instead of raising. -/

def alookup {α β : Type} [DecidableEq α] : List (α × β) → α → Option β
  | [], _ => none
  | kv :: l, k => if kv.1 = k then some kv.2 else alookup l k

def ainsert {α β : Type} [DecidableEq α] : List (α × β) → α → β → List (α × β)
  | [], k, v => [(k, v)]
  | kv :: l, k, v => if kv.1 = k then (k, v) :: l else kv :: ainsert l k v

/-! ## Decimal codec

Embedding of Python `str(...)` on ints and `int(...)` on strings (the
latter raises `ValueError` on non-numeric input, hence `Option`). -/

def digitChar (n : Nat) : Char := Char.ofNat (48 + n)

def digitVal (c : Char) : Option Nat :=
  if 48 ≤ c.toNat ∧ c.toNat ≤ 57 then some (c.toNat - 48) else none

def toDigitsCore : Nat → Nat → List Char
  | 0, _ => []
  | fuel + 1, n => if n = 0 then [] else digitChar (n % 10) :: toDigitsCore fuel (n / 10)

def toDigitsLE (n : Nat) : List Char := toDigitsCore (n + 1) n

def printNat (n : Nat) : String :=
  if n = 0 then "0" else String.mk (toDigitsLE n).reverse

/-- Value of a little-endian digit list. -/
def parseDigitsLE : List Char → Option Nat
  | [] => some 0
  | c :: cs => do
    let d ← digitVal c
    let v ← parseDigitsLE cs
    pure (v * 10 + d)

def parseNat (s : String) : Option Nat :=
  match s.data.reverse with
  | [] => none
  | c :: cs => parseDigitsLE (c :: cs)

/-! ## Data model

`Asset` embeds `cognite.client.data_classes.assets.Asset`.  Internal ids
are `Nat`; metadata is an insertion-ordered association list (Python
`dict` of strings).  Payloads built by `build_asset_create` have no id
yet in Python (`None`); the embedding leaves their `id` field at 0 and
the store assigns the real id on creation. -/

structure Asset where
  id : Nat
  external_id : Option String
  name : String
  description : Option String
  source : Option String
  metadata : List (String × String)
  parent_id : Option Nat
deriving DecidableEq

/-- The destination CDF project: the asset list (in listing order) plus
the next internal id the store will assign. -/
structure Store where
  assets : List Asset
  nextId : Nat
deriving DecidableEq

deriving instance DecidableEq for Except

/-- `client.assets.create`: assigns fresh internal ids to the payloads,
appends them, and returns the created assets. -/
def createAux (nextId : Nat) : List Asset → List Asset
  | [] => []
  | p :: ps => { p with id := nextId } :: createAux (nextId + 1) ps

def Store.create (s : Store) (payloads : List Asset) : Store × List Asset :=
  let created := createAux s.nextId payloads
  ({ assets := s.assets ++ created, nextId := s.nextId + payloads.length }, created)

/-- Replace every stored asset whose id matches the payload's id. -/
def replaceId (l : List Asset) (u : Asset) : List Asset :=
  l.map (fun a => if a.id = u.id then u else a)

/-- In-place update of the stored assets by internal id. -/
def applyUpdates (l : List Asset) (ps : List Asset) : List Asset :=
  ps.foldl replaceId l

/-- `client.assets.update`: in-place update by internal id, returning the
updated assets. -/
def Store.update (s : Store) (payloads : List Asset) : Store × List Asset :=
  ({ s with assets := applyUpdates s.assets payloads }, payloads)

/-- `client.assets.delete`: bulk delete by internal id. -/
def Store.delete (s : Store) (ids : List Nat) : Store :=
  { s with assets := s.assets.filter (fun a => !(ids.contains a.id)) }

/-! ## Replication metadata (spec-modelled collaborators)

`replication.py` is imported by `assets.py` but is not among the
sources, so its helpers are modelled from the specification. -/

def replSourceKey : String := "_replicatedSource"

def replIdKey : String := "_replicatedInternalId"

def replTimeKey : String := "_replicatedTime"

/-- Modelled from the spec: `replication.new_metadata` (the Metadata
Tagger, §4.1) — "Produces a new metadata mapping copying the source
asset's own metadata plus the three replication keys above, overwriting
any pre-existing replication keys." -/
def new_metadata (a : Asset) (project_src : String) (runtime : Nat) : List (String × String) :=
  ainsert (ainsert (ainsert a.metadata replSourceKey project_src)
    replIdKey (printNat a.id)) replTimeKey (printNat runtime)

/-- The source internal id recorded on a replicated destination asset:
`int(metadata["_replicatedInternalId"])` when present and numeric. -/
def tagOf (a : Asset) : Option Nat :=
  (alookup a.metadata replIdKey).bind parseNat

/-- Modelled from the spec: `replication.make_id_object_map` — "a lookup
from source id to existing destination asset (if any)" (§4.2), matching
destination assets "by `_replicatedInternalId`" (§3, Lifecycle). -/
def make_id_object_map (assets : List Asset) : List (Nat × Asset) :=
  assets.foldl (fun m a => match tagOf a with
    | some k => ainsert m k a
    | none => m) []

/-- Modelled from the spec: `replication.existing_mapping` — "Fold all
three outcome lists (created, updated, unchanged) into the Id Mapping
using each asset's source internal id as key and its resulting
destination internal id as value" (§4.3 step 5). -/
def existing_mapping (assets : List Asset) (ids : List (Nat × Nat)) : List (Nat × Nat) :=
  assets.foldl (fun m a => match tagOf a with
    | some k => ainsert m k a.id
    | none => m) ids

/-- The replication-key set excluded from the classifier's equality
check (§4.2: "metadata-excluding-replication-keys"). -/
def stripRepl (m : List (String × String)) : List (String × String) :=
  m.filter (fun kv => !([replSourceKey, replIdKey, replTimeKey].contains kv.1))

/-- Modelled from the spec: the Record Classifier's "differs" test
(§4.2) — "Equality for 'differs' must cover external_id, name,
description, source, and metadata-excluding-replication-keys". -/
def asset_differs (src dst : Asset) : Bool :=
  !(src.external_id == dst.external_id && src.name == dst.name &&
    src.description == dst.description && src.source == dst.source &&
    stripRepl src.metadata == stripRepl dst.metadata)

/-! ## `assets.py` itself -/

/-- `build_asset_create` (assets.py lines 11-37).  The Python body
builds a new `Asset`; `src_id_dst_map[src_asset.parent_id]` raises
`KeyError` when `depth > 0` and the parent id is absent, which the
embedding renders as `Except.error`. -/
def build_asset_create (src_asset : Asset) (src_id_dst_map : List (Nat × Nat))
    (project_src : String) (runtime : Nat) (depth : Nat) : Except String Asset := do
  let pid ← if 0 < depth then
      match src_asset.parent_id with
      | none => Except.error "KeyError: None"
      | some p =>
        match alookup src_id_dst_map p with
        | none => Except.error "KeyError: parent id not in src_id_dst_map"
        | some d => Except.ok (some d)
    else Except.ok none
  Except.ok {
    id := 0
    external_id := src_asset.external_id
    name := src_asset.name
    description := src_asset.description
    metadata := new_metadata src_asset project_src runtime
    source := src_asset.source
    parent_id := pid }

/-- `build_asset_update` (assets.py lines 40-67): mutates the destination
asset's five replicable fields in place; the parent re-mapping line is
commented out in the source ("when asset hierarchy is mutable"). -/
def build_asset_update (src_asset dst_asset : Asset) (_src_id_dst_map : List (Nat × Nat))
    (project_src : String) (runtime : Nat) (_depth : Nat) : Asset :=
  { dst_asset with
    external_id := src_asset.external_id
    name := src_asset.name
    description := src_asset.description
    metadata := new_metadata src_asset project_src runtime
    source := src_asset.source }

/-- `find_children` (assets.py lines 70-83).  `create_hierarchy` passes
the sentinel `[None]` at depth 0 and a list of real assets afterwards,
hence `parents : List (Option Asset)`; `asset.parent_id in parent_ids`
is `False` for a root once `parent_ids` is a set of ints. -/
def find_children (assets : List Asset) (parents : List (Option Asset)) : List Asset :=
  if parents = [(none : Option Asset)] then
    assets.filter (fun a => a.parent_id == none)
  else
    assets.filter (fun a => match a.parent_id with
      | none => false
      | some pid => (parents.filterMap (fun p => Option.map Asset.id p)).contains pid)

/-- Modelled from the spec: `replication.make_objects_batch` (§4.2) —
partitions one depth level into to-create / to-update / unchanged,
building payloads with the two callbacks; a missing destination
counterpart means create, a matching one is updated exactly when the
replicable fields differ.  `replication.retry` resolves to the plain
store call (§6: "returns whatever the operation returns on eventual
success"). -/
def make_objects_batch (children : List Asset) (src_id_dst_asset : List (Nat × Asset))
    (src_dst_ids : List (Nat × Nat)) (project_src : String) (runtime : Nat) (depth : Nat) :
    Except String (List Asset × List Asset × List Asset) :=
  match children with
  | [] => Except.ok ([], [], [])
  | c :: rest => do
    let (cr, up, un) ← make_objects_batch rest src_id_dst_asset src_dst_ids project_src runtime depth
    match alookup src_id_dst_asset c.id with
    | none => do
      let payload ← build_asset_create c src_dst_ids project_src runtime depth
      Except.ok (payload :: cr, up, un)
    | some dst =>
      if asset_differs c dst then
        Except.ok (cr, build_asset_update c dst src_dst_ids project_src runtime depth :: up, un)
      else
        Except.ok (cr, up, dst :: un)

/-- One iteration of `create_hierarchy`'s while-loop (assets.py lines
108-135): classify the level, create, update, and fold all outcomes into
the Id Mapping. -/
def level_step (src_id_dst_asset : List (Nat × Asset)) (project_src : String) (runtime : Nat)
    (children : List Asset) (depth : Nat) (src_dst_ids : List (Nat × Nat)) (S : Store) :
    Except String (List (Nat × Nat) × Store) := do
  let (create_assets, update_assets, unchanged_assets) ←
    make_objects_batch children src_id_dst_asset src_dst_ids project_src runtime depth
  let (S1, created_assets) := S.create create_assets
  let (S2, updated_assets) := S1.update update_assets
  let ids := existing_mapping (created_assets ++ updated_assets ++ unchanged_assets) src_dst_ids
  Except.ok (ids, S2)

/-- The while-loop of `create_hierarchy`, with explicit fuel standing in
for Python's unbounded `while children:`. -/
def create_hierarchy_loop (src_assets : List Asset) (src_id_dst_asset : List (Nat × Asset))
    (project_src : String) (runtime : Nat) :
    Nat → Nat → List Asset → List (Nat × Nat) → Store →
    Except String (List (Nat × Nat) × Store)
  | 0, _, _, _, _ => Except.error "while-loop did not terminate"
  | _ + 1, _, [], src_dst_ids, S => Except.ok (src_dst_ids, S)
  | fuel + 1, depth, c :: cs, src_dst_ids, S => do
    let (ids, S1) ← level_step src_id_dst_asset project_src runtime (c :: cs) depth src_dst_ids S
    create_hierarchy_loop src_assets src_id_dst_asset project_src runtime fuel (depth + 1)
      (find_children src_assets ((c :: cs).map some)) ids S1

/-- `create_hierarchy` (assets.py lines 86-137).  The source list has at
most `length` many nonempty depth levels, so `length + 1` fuel is enough
whenever the Python loop terminates at all. -/
def create_hierarchy (src_assets dst_assets : List Asset) (project_src : String)
    (runtime : Nat) (S : Store) : Except String (List (Nat × Nat) × Store) :=
  create_hierarchy_loop src_assets (make_id_object_map dst_assets) project_src runtime
    (src_assets.length + 1) 0 (find_children src_assets [none]) [] S

/-! ## Deletion sweeps -/

/-- The id-collection loop of `remove_not_replicated_in_dst` (assets.py
lines 148-151): `if not asset.metadata or not asset.metadata["_replicatedSource"]`.
Bracket access on non-empty metadata lacking the key raises `KeyError`. -/
def sweepB_ids : List Asset → Except String (List Nat)
  | [] => Except.ok []
  | a :: rest =>
    if a.metadata.isEmpty then do
      let ids ← sweepB_ids rest
      Except.ok (a.id :: ids)
    else
      match alookup a.metadata replSourceKey with
      | none => Except.error "KeyError: _replicatedSource"
      | some v =>
        if v = "" then do
          let ids ← sweepB_ids rest
          Except.ok (a.id :: ids)
        else sweepB_ids rest

/-- `remove_not_replicated_in_dst` (assets.py lines 140-153), Sweep B. -/
def remove_not_replicated_in_dst (client_dst : Store) : Except String (List Nat × Store) := do
  let ids ← sweepB_ids client_dst.assets
  Except.ok (ids, client_dst.delete ids)

/-- The id-collection loop of `remove_replicated_if_not_in_src` (assets.py
lines 166-170): `if asset.metadata and asset.metadata["_replicatedInternalId"]:`
then `if int(...) in src_asset_ids: append`.  Note the code appends when
the tag IS in the source id set. -/
def sweepA_ids (src_asset_ids : List Nat) : List Asset → Except String (List Nat)
  | [] => Except.ok []
  | a :: rest =>
    if a.metadata.isEmpty then sweepA_ids src_asset_ids rest
    else
      match alookup a.metadata replIdKey with
      | none => Except.error "KeyError: _replicatedInternalId"
      | some v =>
        if v = "" then sweepA_ids src_asset_ids rest
        else
          match parseNat v with
          | none => Except.error "ValueError: invalid literal for int()"
          | some k =>
            if src_asset_ids.contains k then do
              let ids ← sweepA_ids src_asset_ids rest
              Except.ok (a.id :: ids)
            else sweepA_ids src_asset_ids rest

/-- `remove_replicated_if_not_in_src` (assets.py lines 156-173), Sweep A. -/
def remove_replicated_if_not_in_src (src_assets : List Asset) (client_dst : Store) :
    Except String (List Nat × Store) := do
  let src_asset_ids := src_assets.map Asset.id
  let ids ← sweepA_ids src_asset_ids client_dst.assets
  Except.ok (ids, client_dst.delete ids)

/-- `replicate` (assets.py lines 176-226): list both projects, run the
hierarchy walker with one shared run timestamp, then the optional
sweeps.  The run timestamp and the two flags are explicit parameters;
the returned pair is the final Id Mapping and destination state. -/
def replicate (assets_src : List Asset) (client_dst : Store) (project_src : String)
    (replicated_runtime : Nat) (delete_replicated_if_not_in_src : Bool)
    (delete_not_replicated_in_dst : Bool) : Except String (List (Nat × Nat) × Store) := do
  let assets_dst := client_dst.assets
  let (src_dst_ids_assets, d1) ←
    create_hierarchy assets_src assets_dst project_src replicated_runtime client_dst
  let d2 ← if delete_replicated_if_not_in_src then do
      let (_, d) ← remove_replicated_if_not_in_src assets_src d1
      Except.ok d
    else Except.ok d1
  let d3 ← if delete_not_replicated_in_dst then do
      let (_, d) ← remove_not_replicated_in_dst d2
      Except.ok d
    else Except.ok d2
  Except.ok (src_dst_ids_assets, d3)

/-! ## Specification-side definitions used in the theorems -/

/-- The sequence of depth levels processed by `create_hierarchy`:
iterated `find_children`, starting from the `[None]` sentinel. -/
def levelSeq (src : List Asset) : Nat → List Asset
  | 0 => find_children src [none]
  | d + 1 => find_children src ((levelSeq src d).map some)

/-- At a positive depth, every selected child's parent id has a mapping
entry. -/
def parents_mapped (children : List Asset) (ids : List (Nat × Nat)) (depth : Nat) : Prop :=
  0 < depth → ∀ c ∈ children, (c.parent_id.bind (alookup ids)).isSome = true

/-- Each value of a source-id → destination-asset map carries the
replication tag it is keyed by (true of `make_id_object_map` output). -/
def map_coherent (m : List (Nat × Asset)) : Prop :=
  ∀ k A, alookup m k = some A → tagOf A = some k

/-- Well-formed destination state: internal ids are unique and below the
store's id counter. -/
def StoreWF (S : Store) : Prop :=
  (S.assets.map Asset.id).Nodup ∧ ∀ a ∈ S.assets, a.id < S.nextId

/-- The last asset in the list carrying replication tag `k` (Python dict
folds let the later entry win). -/
def lastTagged : List Asset → Nat → Option Asset
  | [], _ => none
  | a :: l, k => (lastTagged l k).orElse (fun _ => if tagOf a = some k then some a else none)

/-- `HasDepth src a d`: asset `a` is reachable from a root of `src` in
exactly `d` parent steps — the spec's notion of tree depth. -/
inductive HasDepth (src : List Asset) : Asset → Nat → Prop
  | root (a : Asset) : a ∈ src → a.parent_id = none → HasDepth src a 0
  | child (a p : Asset) (d : Nat) : a ∈ src → p ∈ src → a.parent_id = some p.id →
      HasDepth src p d → HasDepth src a (d + 1)

/-- Resolve an asset's parent reference inside the source list. -/
def paNext (src : List Asset) (a : Asset) : Option Asset :=
  a.parent_id.bind (fun pid => src.find? (fun b => b.id == pid))

def paIter (src : List Asset) : Nat → Asset → Option Asset
  | 0, a => some a
  | k + 1, a => (paNext src a).bind (paIter src k)

/-- The parent relation has no cycle among the source assets. -/
def acyclicCheck (src : List Asset) : Bool :=
  src.all (fun a => (List.range src.length).all
    (fun k => !(paIter src (k + 1) a == some a)))

@[reducible] def Acyclic (src : List Asset) : Prop := acyclicCheck src = true

/-- Distance to a root along parent references, fuel-bounded. -/
def rootDistAux (src : List Asset) : Nat → Asset → Option Nat
  | 0, _ => none
  | fuel + 1, a =>
    match a.parent_id with
    | none => some 0
    | some pid =>
      match src.find? (fun b => b.id == pid) with
      | none => none
      | some p => (rootDistAux src fuel p).map (· + 1)

def rootDist (src : List Asset) (a : Asset) : Option Nat :=
  rootDistAux src (src.length + 1) a

/-- The maximum depth of the source tree. -/
def maxDepth (src : List Asset) : Nat :=
  (src.filterMap (rootDist src)).foldl max 0

/-- A destination asset counts as replicated for Sweep B exactly when it
has a non-empty `_replicatedSource` value. -/
def replicated_tagged (a : Asset) : Bool :=
  match alookup a.metadata replSourceKey with
  | some v => !(v == "")
  | none => false

/-- The payload shape the spec promises from `build_asset_create`. -/
def created_payload (a : Asset) (p : String) (t : Nat) (pid : Option Nat) : Asset :=
  { id := 0
    external_id := a.external_id
    name := a.name
    description := a.description
    source := a.source
    metadata := new_metadata a p t
    parent_id := pid }

/-- The update the spec promises from `build_asset_update`: the five
replicable fields refreshed from the source asset, everything else kept
from the destination asset. -/
def refreshed_payload (src dst : Asset) (p : String) (t : Nat) : Asset :=
  { dst with
    external_id := src.external_id
    name := src.name
    description := src.description
    source := src.source
    metadata := new_metadata src p t }

/-! ## Concrete fixtures for witnesses and counterexamples -/

def fixSrc1 : Asset :=
  { id := 1, external_id := some "root", name := "root", description := none,
    source := none, metadata := [], parent_id := none }

def fixSrc2 : Asset :=
  { id := 2, external_id := some "child", name := "child", description := none,
    source := none, metadata := [], parent_id := some 1 }

def fixX : Asset :=
  { id := 10, external_id := some "X", name := "X", description := none, source := none,
    metadata := [(replSourceKey, "proj"), (replIdKey, "1"), (replTimeKey, "0")],
    parent_id := none }

def fixY : Asset :=
  { id := 11, external_id := some "Y", name := "Y", description := none, source := none,
    metadata := [(replSourceKey, "proj"), (replIdKey, "2"), (replTimeKey, "0")],
    parent_id := none }

def fixZ : Asset :=
  { id := 12, external_id := some "Z", name := "Z", description := none, source := none,
    metadata := [], parent_id := none }

def fixW : Asset :=
  { id := 13, external_id := some "W", name := "W", description := none, source := none,
    metadata := [("foo", "bar")], parent_id := none }

def fixW2 : Asset :=
  { id := 14, external_id := some "W2", name := "W2", description := none, source := none,
    metadata := [("colour", "blue")], parent_id := none }

def fixOrphan : Asset :=
  { id := 3, external_id := some "orphan", name := "orphan", description := none,
    source := none, metadata := [], parent_id := some 5 }

/-! ## Per-child classifier outcome functions (proof-side views of the
Record Classifier's three branches) -/

def crFn (map0 : List (Nat × Asset)) (ids : List (Nat × Nat)) (p : String) (t d : Nat)
    (c : Asset) : Option Asset :=
  match alookup map0 c.id with
  | none => (build_asset_create c ids p t d).toOption
  | some _ => none

def upFn (map0 : List (Nat × Asset)) (ids : List (Nat × Nat)) (p : String) (t d : Nat)
    (c : Asset) : Option Asset :=
  match alookup map0 c.id with
  | some A => if asset_differs c A then some (build_asset_update c A ids p t d) else none
  | none => none

def unFn (map0 : List (Nat × Asset)) (c : Asset) : Option Asset :=
  match alookup map0 c.id with
  | some A => if asset_differs c A then none else some A
  | none => none

/-- `k` is the id of a source asset processed at some depth below `d`. -/
def processedBefore (src : List Asset) (d : Nat) (k : Nat) : Prop :=
  ∃ e, e < d ∧ ∃ c ∈ levelSeq src e, c.id = k

/-- The loop invariant of one `replicate` run over destination state
`D0`: the store stays well-formed and only grows ids; the Id Mapping's
domain is exactly the processed source ids; every processed source
asset has a matching, tagged destination counterpart recorded both in
the store and in the mapping; and unprocessed replication tags in the
store are exactly as they were in `D0`. -/
def RunInv (src : List Asset) (D0 : Store) (d : Nat) (m : List (Nat × Nat)) (S : Store) :
    Prop :=
  ((S.assets.map Asset.id).Nodup ∧ ∀ a ∈ S.assets, a.id < S.nextId) ∧
  D0.nextId ≤ S.nextId ∧
  (∀ k, (alookup m k).isSome = true ↔ processedBefore src d k) ∧
  (∀ e, e < d → ∀ c ∈ levelSeq src e, ∃ A, lastTagged S.assets c.id = some A ∧
    asset_differs c A = false ∧ alookup m c.id = some A.id) ∧
  (∀ k, ¬ processedBefore src d k → lastTagged S.assets k = lastTagged D0.assets k)

/-! ## Dictionary and codec lemmas -/

theorem alookup_ainsert_self {α β : Type} [DecidableEq α]
    (m : List (α × β)) (k : α) (v : β) : alookup (ainsert m k v) k = some v := by
  induction m with
  | nil => simp [ainsert, alookup]
  | cons kv l ih =>
    by_cases h : kv.1 = k
    · simp [ainsert, alookup, h]
    · simp [ainsert, alookup, h, ih]

theorem alookup_ainsert_ne {α β : Type} [DecidableEq α]
    (m : List (α × β)) (k k' : α) (v : β) (h : k ≠ k') :
    alookup (ainsert m k v) k' = alookup m k' := by
  induction m with
  | nil => simp [ainsert, alookup, h]
  | cons kv l ih =>
    by_cases hk : kv.1 = k
    · have hne : kv.1 ≠ k' := by rw [hk]; exact h
      simp [ainsert, alookup, hk, h, hne]
    · by_cases hk' : kv.1 = k'
      · have hne : ¬k' = k := fun hh => h hh.symm
        simp [ainsert, alookup, hk, hk', hne]
      · simp [ainsert, alookup, hk, hk', ih]

theorem digitVal_digitChar (d : Nat) (h : d < 10) :
    digitVal (digitChar d) = some d := by
  interval_cases d <;> rfl

theorem parseDigitsLE_toDigitsCore (fuel : Nat) :
    ∀ n, n ≤ fuel → parseDigitsLE (toDigitsCore fuel n) = some n := by
  induction fuel with
  | zero =>
    intro n hn
    obtain rfl : n = 0 := Nat.le_zero.mp hn
    rfl
  | succ g ih =>
    intro n hn
    by_cases h : n = 0
    · subst h; rfl
    · rw [toDigitsCore, if_neg h]
      have hlt : n / 10 < n := Nat.div_lt_self (Nat.pos_of_ne_zero h) (by decide)
      rw [parseDigitsLE, digitVal_digitChar _ (Nat.mod_lt _ (by decide)), ih _ (by omega)]
      simp only [Option.bind_eq_bind, Option.some_bind, Option.pure_def, Option.some.injEq]
      have := Nat.div_add_mod n 10
      omega

theorem parseDigitsLE_toDigitsLE (n : Nat) : parseDigitsLE (toDigitsLE n) = some n :=
  parseDigitsLE_toDigitsCore (n + 1) n (by omega)

theorem toDigitsLE_ne_nil (n : Nat) (h : n ≠ 0) : toDigitsLE n ≠ [] := by
  rw [toDigitsLE, toDigitsCore, if_neg h]
  exact List.cons_ne_nil _ _

theorem parseNat_printNat (n : Nat) : parseNat (printNat n) = some n := by
  by_cases h : n = 0
  · subst h; rfl
  · rw [printNat]
    simp only [h, if_false]
    rw [parseNat]
    have hd : (String.mk (toDigitsLE n).reverse).data = (toDigitsLE n).reverse := rfl
    rw [hd, List.reverse_reverse]
    cases hcase : toDigitsLE n with
    | nil => exact absurd hcase (toDigitsLE_ne_nil n h)
    | cons c cs =>
      simp only [hcase]
      rw [← hcase, parseDigitsLE_toDigitsLE]


/-! ## Except reduction lemmas -/

theorem except_bind_ok {ε α β : Type} (a : α) (f : α → Except ε β) :
    (Except.ok a >>= f) = f a := rfl

theorem except_bind_error {ε α β : Type} (e : ε) (f : α → Except ε β) :
    ((Except.error e : Except ε α) >>= f) = Except.error e := rfl

/-! ## Sweep B lemmas -/

theorem sweepB_ids_eq (l : List Asset)
    (hmeta : ∀ a ∈ l, a.metadata ≠ [] → (alookup a.metadata replSourceKey).isSome = true) :
    sweepB_ids l = Except.ok ((l.filter (fun a => !(replicated_tagged a))).map Asset.id) := by
  induction l with
  | nil => rfl
  | cons a rest ih =>
    have hrest := ih (fun b hb hbne => hmeta b (List.mem_cons_of_mem _ hb) hbne)
    by_cases hm : a.metadata = []
    · have htag : replicated_tagged a = false := by
        simp [replicated_tagged, hm, alookup]
      simp only [sweepB_ids, List.isEmpty_iff.mpr hm, if_true, hrest, except_bind_ok,
        List.filter_cons, htag, Bool.not_false, if_pos, List.map_cons]
    · have hsome := hmeta a (List.mem_cons_self _ _) hm
      obtain ⟨v, hv⟩ := Option.isSome_iff_exists.mp hsome
      have hne : a.metadata.isEmpty = false := by
        simp [List.isEmpty_iff, hm]
      by_cases hv0 : v = ""
      · have htag : replicated_tagged a = false := by
          simp [replicated_tagged, hv, hv0]
        simp only [sweepB_ids, hne, Bool.false_eq_true, if_false, hv, hv0, if_true, hrest,
          except_bind_ok, List.filter_cons, htag, Bool.not_false, if_pos, List.map_cons]
      · have htag : replicated_tagged a = true := by
          simp [replicated_tagged, hv, hv0]
        simp only [sweepB_ids, hne, Bool.false_eq_true, if_false, hv, hv0, hrest,
          List.filter_cons, htag, Bool.not_true, Bool.false_eq_true, if_false]

theorem contains_map_id_filter {l : List Asset} (hn : (l.map Asset.id).Nodup)
    (q : Asset → Bool) (a : Asset) (ha : a ∈ l) :
    ((l.filter q).map Asset.id).contains a.id = q a := by
  cases hq : q a with
  | true =>
    have hmem : a.id ∈ (l.filter q).map Asset.id :=
      List.mem_map_of_mem _ (List.mem_filter.mpr ⟨ha, hq⟩)
    simpa [List.contains] using hmem
  | false =>
    rw [Bool.eq_false_iff]
    intro hcon
    have hmem : a.id ∈ (l.filter q).map Asset.id := by
      simpa [List.contains] using hcon
    obtain ⟨b, hb, hid⟩ := List.mem_map.mp hmem
    have hbl := (List.mem_filter.mp hb).1
    have hbq := (List.mem_filter.mp hb).2
    have hba : b = a := List.inj_on_of_nodup_map hn hbl ha hid
    rw [hba] at hbq
    rw [hbq] at hq
    exact Bool.true_eq_false.mp hq

/-! ## Claim theorems -/

/-- C1 (counterexample evaluation): with source assets `{id 1}` and
destination assets `{X tagged source-id 1, Y tagged source-id 2}`,
`remove_replicated_if_not_in_src` deletes X (id 10), the asset whose
source counterpart still exists, and keeps Y — the opposite of the
claimed behaviour (delete Y, keep X): the code's membership test
`int(metadata["_replicatedInternalId"]) in src_asset_ids` is inverted
relative to its own docstring "delete the ones that are no longer in
the source". -/
theorem sweepA_deletes_live_keeps_orphan :
    remove_replicated_if_not_in_src [fixSrc1] { assets := [fixX, fixY], nextId := 50 } =
      Except.ok ([10], { assets := [fixY], nextId := 50 }) := by decide

/-- C3: `build_asset_create` copies external_id/name/description/source
verbatim, sets metadata to the tagger output, resolves the parent
through the Id Mapping when depth > 0, gives no parent (and consults no
mapping) at depth 0; and the assets selected at depth 0 are exactly the
root assets (parent reference = none). -/
theorem create_payload_correct (a : Asset) (m : List (Nat × Nat)) (p : String) (t : Nat) :
    (build_asset_create a m p t 0 = Except.ok (created_payload a p t none)) ∧
    (∀ depth pid did, 0 < depth → a.parent_id = some pid → alookup m pid = some did →
      build_asset_create a m p t depth = Except.ok (created_payload a p t (some did))) ∧
    (∀ assets : List Asset,
      find_children assets [none] = assets.filter (fun x => x.parent_id == none)) := by
  refine ⟨rfl, ?_, fun assets => rfl⟩
  intro depth pid did hd hpid hdid
  cases depth with
  | zero => exact absurd hd (by decide)
  | succ k =>
    simp only [build_asset_create, Nat.succ_pos, if_true, hpid, hdid, except_bind_ok]
    rfl

/-- Witness for C3 at a concrete child asset and mapping. -/
theorem create_payload_correct_witness :
    build_asset_create fixSrc2 [(1, 100)] "proj" 7 1 =
      Except.ok (created_payload fixSrc2 "proj" 7 (some 100)) :=
  (create_payload_correct fixSrc2 [(1, 100)] "proj" 7).2.1 1 1 100 (by decide) rfl rfl

/-- C5 (counterexample): the claim says Sweep B's deletion set is
exactly the destination assets lacking `_replicatedSource` provenance.
A destination asset with non-empty metadata `{"colour": "blue"}` (id 14)
lacks the provenance, yet the sweep raises `KeyError` instead of
deleting it (so nothing at all is deleted). -/
theorem sweepB_keyerror_on_missing_key :
    remove_not_replicated_in_dst { assets := [fixW2], nextId := 50 } =
      Except.error "KeyError: _replicatedSource" ∧
    ¬ ∃ S2, remove_not_replicated_in_dst { assets := [fixW2], nextId := 50 } =
      Except.ok ([14], S2) := by
  refine ⟨by decide, ?_⟩
  rintro ⟨S2, h⟩
  have h0 : remove_not_replicated_in_dst { assets := [fixW2], nextId := 50 } =
      Except.error "KeyError: _replicatedSource" := by decide
  rw [h0] at h
  exact Except.noConfusion h

/-- C5 (amended): on destination states whose assets' metadata is empty
or contains the `_replicatedSource` key, Sweep B deletes exactly the
assets lacking a non-empty `_replicatedSource` value and keeps exactly
the tagged ones. -/
theorem sweepB_deletes_untagged (S : Store)
    (hn : (S.assets.map Asset.id).Nodup)
    (hmeta : ∀ a ∈ S.assets, a.metadata ≠ [] →
      (alookup a.metadata replSourceKey).isSome = true) :
    remove_not_replicated_in_dst S = Except.ok
      ((S.assets.filter (fun a => !(replicated_tagged a))).map Asset.id,
       { assets := S.assets.filter (fun a => replicated_tagged a), nextId := S.nextId }) := by
  have hfilter : S.assets.filter
      (fun a => !(((S.assets.filter (fun b => !(replicated_tagged b))).map Asset.id).contains a.id)) =
      S.assets.filter (fun a => replicated_tagged a) := by
    apply List.filter_congr
    intro a ha
    rw [contains_map_id_filter hn _ a ha]
    simp
  unfold remove_not_replicated_in_dst Store.delete
  rw [sweepB_ids_eq S.assets hmeta, except_bind_ok, hfilter]

/-- Witness for C5 (amended): `{X tagged replicated, Z untagged}` —
Sweep B deletes Z and keeps X. -/
theorem sweepB_deletes_untagged_witness :
    remove_not_replicated_in_dst { assets := [fixX, fixZ], nextId := 50 } =
      Except.ok ([12], { assets := [fixX], nextId := 50 }) := by
  rw [sweepB_deletes_untagged { assets := [fixX, fixZ], nextId := 50 } (by decide) (by decide)]
  decide

/-- C6 (failing input): a destination asset whose metadata is the
non-empty mapping `{"foo": "bar"}` (no replication keys) makes BOTH
deletion sweeps raise `KeyError` on the metadata lookup, instead of
being treated as "not replicated"; the claim that no metadata lookup in
either sweep can fail is contradicted by the code. -/
theorem sweeps_keyerror_on_malformed_metadata :
    remove_replicated_if_not_in_src [fixSrc1] { assets := [fixW], nextId := 50 } =
      Except.error "KeyError: _replicatedInternalId" ∧
    remove_not_replicated_in_dst { assets := [fixW], nextId := 50 } =
      Except.error "KeyError: _replicatedSource" := by decide

/-- C7: at depth > 0, a missing parent mapping entry (or a missing
parent reference altogether) makes `build_asset_create` raise instead
of returning a payload; at depth 0 the mapping is never consulted and
the call always returns a payload. -/
theorem missing_parent_fatal (a : Asset) (m : List (Nat × Nat)) (p : String) (t : Nat) :
    (∀ depth, 0 < depth → a.parent_id = none →
      build_asset_create a m p t depth = Except.error "KeyError: None") ∧
    (∀ depth pid, 0 < depth → a.parent_id = some pid → alookup m pid = none →
      build_asset_create a m p t depth =
        Except.error "KeyError: parent id not in src_id_dst_map") ∧
    (∀ m2 : List (Nat × Nat), build_asset_create a m p t 0 = build_asset_create a m2 p t 0) ∧
    (∃ q, build_asset_create a m p t 0 = Except.ok q) := by
  refine ⟨?_, ?_, fun m2 => rfl, ⟨_, rfl⟩⟩
  · intro depth hd hnone
    cases depth with
    | zero => exact absurd hd (by decide)
    | succ k =>
      simp only [build_asset_create, Nat.succ_pos, if_true, hnone]
      rfl
  · intro depth pid hd hpid hmiss
    cases depth with
    | zero => exact absurd hd (by decide)
    | succ k =>
      simp only [build_asset_create, Nat.succ_pos, if_true, hpid, hmiss]
      rfl

/-- Witness for C7: an asset whose parent id 5 has no mapping entry is
rejected at depth 1. -/
theorem missing_parent_fatal_witness :
    build_asset_create fixOrphan [] "proj" 7 1 =
      Except.error "KeyError: parent id not in src_id_dst_map" :=
  (missing_parent_fatal fixOrphan [] "proj" 7).2.1 1 5 (by decide) rfl rfl

/-- C8: `build_asset_update` refreshes exactly external_id, name,
description, source and metadata (via the tagger) from the source asset
and leaves every other destination field — in particular the parent
reference and the internal id — unchanged. -/
theorem update_frame (src dst : Asset) (m : List (Nat × Nat)) (p : String) (t d : Nat) :
    build_asset_update src dst m p t d = refreshed_payload src dst p t ∧
    (build_asset_update src dst m p t d).parent_id = dst.parent_id ∧
    (build_asset_update src dst m p t d).id = dst.id :=
  ⟨rfl, rfl, rfl⟩

/-! ## Depth-level lemmas -/

theorem map_some_ne_sentinel (ch : List Asset) : ch.map some ≠ [(none : Option Asset)] := by
  cases ch with
  | nil => simp
  | cons c cs =>
    intro h
    simp only [List.map_cons, List.cons.injEq] at h
    exact Option.noConfusion h.1

theorem mem_find_children_roots (src : List Asset) (a : Asset) :
    a ∈ find_children src [none] ↔ a ∈ src ∧ a.parent_id = none := by
  rw [find_children, if_pos rfl, List.mem_filter]
  simp

theorem mem_find_children_next (src ch : List Asset) (a : Asset) :
    a ∈ find_children src (ch.map some) ↔
      a ∈ src ∧ ∃ p ∈ ch, a.parent_id = some p.id := by
  rw [find_children, if_neg (map_some_ne_sentinel ch), List.mem_filter]
  have hlist : (ch.map some).filterMap (fun p => Option.map Asset.id p) = ch.map Asset.id := by
    rw [List.filterMap_map]
    have : (fun p => Option.map Asset.id p) ∘ (some : Asset → Option Asset) =
        some ∘ Asset.id := rfl
    rw [this, List.filterMap_eq_map]
  rw [hlist]
  constructor
  · rintro ⟨ha, hpred⟩
    refine ⟨ha, ?_⟩
    cases hpid : a.parent_id with
    | none => rw [hpid] at hpred; exact absurd hpred (by simp)
    | some pid =>
      rw [hpid] at hpred
      simp only [List.contains, List.elem_eq_mem, decide_eq_true_eq, List.mem_map] at hpred
      obtain ⟨p, hp, hpe⟩ := hpred
      exact ⟨p, hp, by rw [hpe]⟩
  · rintro ⟨ha, p, hp, hpe⟩
    refine ⟨ha, ?_⟩
    rw [hpe]
    simp only [List.contains, List.elem_eq_mem, decide_eq_true_eq, List.mem_map]
    exact ⟨p, hp, rfl⟩

theorem mem_levelSeq_zero (src : List Asset) (a : Asset) :
    a ∈ levelSeq src 0 ↔ a ∈ src ∧ a.parent_id = none :=
  mem_find_children_roots src a

theorem mem_levelSeq_succ (src : List Asset) (d : Nat) (a : Asset) :
    a ∈ levelSeq src (d + 1) ↔ a ∈ src ∧ ∃ p ∈ levelSeq src d, a.parent_id = some p.id :=
  mem_find_children_next src (levelSeq src d) a

theorem mem_levelSeq_mem_src (src : List Asset) (d : Nat) (a : Asset)
    (h : a ∈ levelSeq src d) : a ∈ src := by
  cases d with
  | zero => exact ((mem_levelSeq_zero src a).mp h).1
  | succ e => exact ((mem_levelSeq_succ src e a).mp h).1

theorem levelSeq_sublist (src : List Asset) (d : Nat) : List.Sublist (levelSeq src d) src := by
  cases d with
  | zero =>
    rw [levelSeq, find_children, if_pos rfl]
    exact List.filter_sublist src
  | succ e =>
    rw [levelSeq, find_children, if_neg (map_some_ne_sentinel _)]
    exact List.filter_sublist src

theorem find_id_unique (src : List Asset) (hn : (src.map Asset.id).Nodup)
    (p : Asset) (hp : p ∈ src) : src.find? (fun b => b.id == p.id) = some p := by
  induction src with
  | nil => exact absurd hp (List.not_mem_nil p)
  | cons b rest ih =>
    rw [List.map_cons, List.nodup_cons] at hn
    rcases List.mem_cons.mp hp with hbp | hrest
    · rw [hbp]
      simp [List.find?]
    · have hne : b.id ≠ p.id := by
        intro he
        exact hn.1 (he ▸ List.mem_map_of_mem Asset.id hrest)
      have hbeq : (b.id == p.id) = false := by simpa using hne
      simp only [List.find?, hbeq]
      exact ih hn.2 hrest

theorem rootDistAux_mono (src : List Asset) :
    ∀ (f : Nat) (a : Asset) (k : Nat) (f' : Nat), rootDistAux src f a = some k → f ≤ f' →
      rootDistAux src f' a = some k := by
  intro f
  induction f with
  | zero => intro a k f' h; exact absurd h (by rw [rootDistAux]; exact Option.noConfusion)
  | succ g ih =>
    intro a k f' h hle
    obtain ⟨f2, rfl⟩ : ∃ f2, f' = f2 + 1 := ⟨f' - 1, by omega⟩
    rw [rootDistAux] at h
    rw [rootDistAux]
    cases hpid : a.parent_id with
    | none => simp only [hpid] at h; simp only [h]
    | some pid =>
      simp only [hpid] at h ⊢
      cases hfind : src.find? (fun b => b.id == pid) with
      | none =>
        simp only [hfind] at h
        exact Option.noConfusion h
      | some p =>
        simp only [hfind] at h ⊢
        obtain ⟨k0, hk0, rfl⟩ : ∃ k0, rootDistAux src g p = some k0 ∧ k = k0 + 1 := by
          cases hg : rootDistAux src g p with
          | none => simp [hg] at h
          | some k0 =>
            simp only [hg] at h
            simp only [Option.map] at h
            exact ⟨k0, rfl, (Option.some_injective _ h).symm⟩
        rw [ih p k0 f2 hk0 (by omega)]
        rfl

theorem mem_levelSeq_rootDistAux (src : List Asset) (hn : (src.map Asset.id).Nodup) :
    ∀ (d : Nat) (a : Asset), a ∈ levelSeq src d → rootDistAux src (d + 1) a = some d := by
  intro d
  induction d with
  | zero =>
    intro a ha
    obtain ⟨_, hroot⟩ := (mem_levelSeq_zero src a).mp ha
    rw [rootDistAux, hroot]
  | succ e ih =>
    intro a ha
    obtain ⟨_, p, hp, hpe⟩ := (mem_levelSeq_succ src e a).mp ha
    have hpsrc : p ∈ src := mem_levelSeq_mem_src src e p hp
    rw [rootDistAux]
    simp only [hpe, find_id_unique src hn p hpsrc, ih p hp]
    rfl

theorem levelSeq_disjoint (src : List Asset) (hn : (src.map Asset.id).Nodup)
    (a : Asset) (d e : Nat) (hd : a ∈ levelSeq src d) (he : a ∈ levelSeq src e) : d = e := by
  have h1 := rootDistAux_mono src (d + 1) a d (d + e + 1)
    (mem_levelSeq_rootDistAux src hn d a hd) (by omega)
  have h2 := rootDistAux_mono src (e + 1) a e (d + e + 1)
    (mem_levelSeq_rootDistAux src hn e a he) (by omega)
  rw [h1] at h2
  exact Option.some_injective _ h2

theorem levelSeq_empty_succ (src : List Asset) (d : Nat) (h : levelSeq src d = []) :
    levelSeq src (d + 1) = [] := by
  rw [levelSeq, h]
  rw [find_children, if_neg (by simp)]
  rw [List.filter_eq_nil_iff]
  intro a _
  cases a.parent_id <;> simp

theorem levelSeq_empty_of_le (src : List Asset) (d e : Nat) (hde : d ≤ e)
    (h : levelSeq src d = []) : levelSeq src e = [] := by
  obtain ⟨j, rfl⟩ : ∃ j, e = d + j := ⟨e - d, by omega⟩
  clear hde
  induction j with
  | zero => exact h
  | succ i ih => exact levelSeq_empty_succ src (d + i) ih

theorem filterMap_length_of_isSome {α β : Type} (f : α → Option β) (l : List α)
    (h : ∀ x ∈ l, (f x).isSome = true) : (l.filterMap f).length = l.length := by
  induction l with
  | nil => rfl
  | cons x xs ih =>
    obtain ⟨b, hb⟩ := Option.isSome_iff_exists.mp (h x (List.mem_cons_self _ _))
    rw [List.filterMap_cons, hb, List.length_cons,
      ih (fun y hy => h y (List.mem_cons_of_mem _ hy)), List.length_cons]

theorem exists_empty_level (src : List Asset) (hn : (src.map Asset.id).Nodup) :
    ∃ d, d ≤ src.length ∧ levelSeq src d = [] := by
  by_contra hcon
  push_neg at hcon
  have hne : ∀ d, d < src.length + 1 → levelSeq src d ≠ [] := fun d hd => hcon d (by omega)
  have hsome : ∀ d ∈ List.range (src.length + 1), ((levelSeq src d).head?).isSome = true := by
    intro d hd
    have := hne d (List.mem_range.mp hd)
    obtain ⟨b, L, hbl⟩ := List.exists_cons_of_ne_nil this
    rw [hbl]
    rfl
  have hlen : ((List.range (src.length + 1)).filterMap
      (fun d => (levelSeq src d).head?)).length = src.length + 1 := by
    rw [filterMap_length_of_isSome _ _ hsome, List.length_range]
  have hnd : ((List.range (src.length + 1)).filterMap
      (fun d => (levelSeq src d).head?)).Nodup := by
    apply List.Nodup.filterMap
    · intro d e a hd he
      have had : a ∈ levelSeq src d := List.mem_of_mem_head? hd
      have hae : a ∈ levelSeq src e := List.mem_of_mem_head? he
      exact levelSeq_disjoint src hn a d e had hae
    · exact List.nodup_range _
  have hsub : ((List.range (src.length + 1)).filterMap
      (fun d => (levelSeq src d).head?)) ⊆ src := by
    intro a ha
    obtain ⟨d, _, hda⟩ := List.mem_filterMap.mp ha
    exact mem_levelSeq_mem_src src d a (List.mem_of_mem_head? hda)
  have := (List.subperm_of_subset hnd hsub).length_le
  omega

theorem le_foldl_max (l : List Nat) : ∀ (i x : Nat), x ∈ l ∨ x ≤ i → x ≤ l.foldl max i := by
  induction l with
  | nil =>
    intro i x h
    rcases h with h | h
    · exact absurd h (List.not_mem_nil x)
    · exact h
  | cons y ys ih =>
    intro i x h
    rw [List.foldl_cons]
    rcases h with h | h
    · rcases List.mem_cons.mp h with rfl | hmem
      · exact ih (max i x) x (Or.inr (le_max_right i x))
      · exact ih (max i y) x (Or.inl hmem)
    · exact ih (max i y) x (Or.inr (le_trans h (le_max_left i y)))

theorem mem_levelSeq_le_maxDepth (src : List Asset) (hn : (src.map Asset.id).Nodup)
    (a : Asset) (d : Nat) (ha : a ∈ levelSeq src d) : d ≤ maxDepth src := by
  obtain ⟨e, hle, hempty⟩ := exists_empty_level src hn
  have hde : d < e := by
    by_contra hcon
    push_neg at hcon
    have := levelSeq_empty_of_le src e d hcon hempty
    rw [this] at ha
    exact List.not_mem_nil a ha
  have hda : rootDist src a = some d := by
    apply rootDistAux_mono src (d + 1) a d (src.length + 1)
      (mem_levelSeq_rootDistAux src hn d a ha)
    omega
  have hmem : d ∈ src.filterMap (rootDist src) :=
    List.mem_filterMap.mpr ⟨a, mem_levelSeq_mem_src src d a ha, hda⟩
  exact le_foldl_max _ 0 d (Or.inl hmem)

theorem levelSeq_empty_of_maxDepth (src : List Asset) (hn : (src.map Asset.id).Nodup)
    (d : Nat) (hd : maxDepth src < d) : levelSeq src d = [] := by
  cases hcase : levelSeq src d with
  | nil => rfl
  | cons a l =>
    have ha : a ∈ levelSeq src d := by rw [hcase]; exact List.mem_cons_self a l
    have := mem_levelSeq_le_maxDepth src hn a d ha
    omega

/-! ## Tag-fold lemmas: Id Mapping and destination-asset map lookups -/

theorem alookup_tagFold {β : Type} (f : Asset → β) (l : List Asset) (m : List (Nat × β))
    (k : Nat) :
    alookup (l.foldl (fun acc a => match tagOf a with
      | some t => ainsert acc t (f a)
      | none => acc) m) k =
    (match lastTagged l k with
      | some a => some (f a)
      | none => alookup m k) := by
  induction l generalizing m with
  | nil => rfl
  | cons a l ih =>
    rw [List.foldl_cons, ih]
    cases hl : lastTagged l k with
    | some b => simp [lastTagged, hl, Option.orElse]
    | none =>
      simp only [lastTagged, hl, Option.orElse]
      cases ht : tagOf a with
      | none => simp [ht]
      | some t =>
        by_cases htk : t = k
        · subst htk
          simp [ht, alookup_ainsert_self]
        · simp [ht, htk, alookup_ainsert_ne _ _ _ _ htk]

theorem lastTagged_mem (l : List Asset) (k : Nat) (a : Asset) (h : lastTagged l k = some a) :
    a ∈ l ∧ tagOf a = some k := by
  induction l with
  | nil => exact Option.noConfusion h
  | cons b l ih =>
    rw [lastTagged] at h
    cases hl : lastTagged l k with
    | some c =>
      rw [hl] at h
      simp only [Option.orElse] at h
      obtain rfl : c = a := Option.some_injective _ h
      obtain ⟨hm, ht⟩ := ih hl
      exact ⟨List.mem_cons_of_mem _ hm, ht⟩
    | none =>
      rw [hl] at h
      simp only [Option.orElse] at h
      by_cases ht : tagOf b = some k
      · rw [if_pos ht] at h
        obtain rfl : b = a := Option.some_injective _ h
        exact ⟨List.mem_cons_self _ _, ht⟩
      · rw [if_neg ht] at h
        exact Option.noConfusion h

theorem lastTagged_isSome_of_mem (l : List Asset) (k : Nat) (a : Asset)
    (ha : a ∈ l) (ht : tagOf a = some k) : (lastTagged l k).isSome = true := by
  induction l with
  | nil => exact absurd ha (List.not_mem_nil a)
  | cons b l ih =>
    rw [lastTagged]
    cases hl : lastTagged l k with
    | some c => rfl
    | none =>
      rcases List.mem_cons.mp ha with rfl | hmem
      · simp [Option.orElse, ht]
      · rw [hl] at ih
        exact absurd (ih hmem) (by simp)

theorem alookup_existing_mapping (l : List Asset) (m : List (Nat × Nat)) (k : Nat) :
    alookup (existing_mapping l m) k =
      (match lastTagged l k with
        | some a => some a.id
        | none => alookup m k) :=
  alookup_tagFold Asset.id l m k

theorem alookup_make_id_object_map (l : List Asset) (k : Nat) :
    alookup (make_id_object_map l) k = lastTagged l k := by
  have h := alookup_tagFold (fun a => a) l [] k
  cases hl : lastTagged l k with
  | some a =>
    rw [hl] at h
    exact h
  | none =>
    rw [hl] at h
    exact h

theorem make_id_object_map_coherent (l : List Asset) : map_coherent (make_id_object_map l) := by
  intro k A h
  rw [alookup_make_id_object_map] at h
  exact (lastTagged_mem l k A h).2

theorem alookup_existing_mapping_isSome (l : List Asset) (m : List (Nat × Nat)) (k : Nat)
    (h : ∃ a ∈ l, tagOf a = some k) :
    (alookup (existing_mapping l m) k).isSome = true := by
  obtain ⟨a, ha, ht⟩ := h
  rw [alookup_existing_mapping]
  have hsome := lastTagged_isSome_of_mem l k a ha ht
  cases hl : lastTagged l k with
  | some b => rfl
  | none =>
    rw [hl] at hsome
    exact absurd hsome (by simp)

/-! ## Metadata-tag lemmas -/

theorem alookup_new_metadata_id (a : Asset) (p : String) (t : Nat) :
    alookup (new_metadata a p t) replIdKey = some (printNat a.id) := by
  unfold new_metadata
  rw [alookup_ainsert_ne _ _ _ _ (by decide), alookup_ainsert_self]

theorem tagOf_of_new_metadata (b a : Asset) (p : String) (t : Nat)
    (hb : b.metadata = new_metadata a p t) : tagOf b = some a.id := by
  rw [tagOf, hb, alookup_new_metadata_id]
  simp [parseNat_printNat]

theorem stripRepl_ainsert (m : List (String × String)) (k v : String)
    (hk : ([replSourceKey, replIdKey, replTimeKey].contains k) = true) :
    stripRepl (ainsert m k v) = stripRepl m := by
  have hk3 : k = replSourceKey ∨ k = replIdKey ∨ k = replTimeKey := by
    simpa [List.contains] using hk
  induction m with
  | nil =>
    rcases hk3 with rfl | rfl | rfl <;>
      simp [ainsert, stripRepl, replSourceKey, replIdKey, replTimeKey]
  | cons kv l ih =>
    by_cases h : kv.1 = k
    · simp only [ainsert, if_pos h, stripRepl, List.filter_cons]
      rw [h]
      rcases hk3 with rfl | rfl | rfl <;>
        simp [replSourceKey, replIdKey, replTimeKey]
    · simp only [ainsert, if_neg h, stripRepl, List.filter_cons]
      simp only [stripRepl] at ih
      rw [ih]

theorem stripRepl_new_metadata (a : Asset) (p : String) (t : Nat) :
    stripRepl (new_metadata a p t) = stripRepl a.metadata := by
  unfold new_metadata
  rw [stripRepl_ainsert _ _ _ (by decide), stripRepl_ainsert _ _ _ (by decide),
    stripRepl_ainsert _ _ _ (by decide)]

theorem differs_false_of_refreshed (c q : Asset) (p : String) (t : Nat)
    (he : q.external_id = c.external_id) (hn2 : q.name = c.name)
    (hd : q.description = c.description) (hs : q.source = c.source)
    (hm : q.metadata = new_metadata c p t) :
    asset_differs c q = false := by
  rw [asset_differs, hm, he, hn2, hd, hs, stripRepl_new_metadata]
  simp

/-! ## Payload and store-operation lemmas -/

theorem build_asset_create_ok_fields (c : Asset) (ids : List (Nat × Nat)) (p : String)
    (t d : Nat) (q : Asset) (h : build_asset_create c ids p t d = Except.ok q) :
    q.metadata = new_metadata c p t ∧ q.external_id = c.external_id ∧ q.name = c.name ∧
    q.description = c.description ∧ q.source = c.source := by
  by_cases hd : 0 < d
  · cases hpid : c.parent_id with
    | none =>
      rw [build_asset_create, if_pos hd] at h
      simp only [hpid, except_bind_error] at h
      exact Except.noConfusion h
    | some pid =>
      rw [build_asset_create, if_pos hd] at h
      simp only [hpid] at h
      cases hdid : alookup ids pid with
      | none =>
        rw [hdid] at h
        exact Except.noConfusion h
      | some did =>
        rw [hdid] at h
        simp only [except_bind_ok, Except.ok.injEq] at h
        rw [← h]
        exact ⟨rfl, rfl, rfl, rfl, rfl⟩
  · rw [build_asset_create, if_neg hd] at h
    simp only [except_bind_ok, Except.ok.injEq] at h
    rw [← h]
    exact ⟨rfl, rfl, rfl, rfl, rfl⟩

theorem mem_createAux (n : Nat) (ps : List Asset) (a : Asset) (ha : a ∈ createAux n ps) :
    ∃ p0 ∈ ps, a.metadata = p0.metadata := by
  induction ps generalizing n with
  | nil => exact absurd ha (List.not_mem_nil a)
  | cons q qs ih =>
    rw [createAux] at ha
    rcases List.mem_cons.mp ha with rfl | hmem
    · exact ⟨q, List.mem_cons_self _ _, rfl⟩
    · obtain ⟨p0, hp0, hmeta⟩ := ih (n + 1) hmem
      exact ⟨p0, List.mem_cons_of_mem _ hp0, hmeta⟩

theorem createAux_exists (n : Nat) (ps : List Asset) (p0 : Asset) (hp : p0 ∈ ps) :
    ∃ a ∈ createAux n ps, a.metadata = p0.metadata := by
  induction ps generalizing n with
  | nil => exact absurd hp (List.not_mem_nil p0)
  | cons q qs ih =>
    rw [createAux]
    rcases List.mem_cons.mp hp with rfl | hmem
    · exact ⟨{ p0 with id := n }, List.mem_cons_self _ _, rfl⟩
    · obtain ⟨a, ha, hmeta⟩ := ih (n + 1) hmem
      exact ⟨a, List.mem_cons_of_mem _ ha, hmeta⟩

/-! ## Batch and level-step inversion lemmas -/


theorem batch_inv (children : List Asset) (map0 : List (Nat × Asset)) (ids : List (Nat × Nat))
    (p : String) (t d : Nat) (cr up un : List Asset)
    (h : make_objects_batch children map0 ids p t d = Except.ok (cr, up, un)) :
    (∀ c ∈ children,
      (alookup map0 c.id = none ∧ ∃ q, build_asset_create c ids p t d = Except.ok q ∧ q ∈ cr) ∨
      (∃ A, alookup map0 c.id = some A ∧ asset_differs c A = true ∧
        build_asset_update c A ids p t d ∈ up) ∨
      (∃ A, alookup map0 c.id = some A ∧ asset_differs c A = false ∧ A ∈ un)) ∧
    (∀ a ∈ cr, ∃ c ∈ children, build_asset_create c ids p t d = Except.ok a) ∧
    (∀ a ∈ up, ∃ c ∈ children, ∃ A, alookup map0 c.id = some A ∧
      a = build_asset_update c A ids p t d) ∧
    (∀ a ∈ un, ∃ c ∈ children, alookup map0 c.id = some a) := by
  induction children generalizing cr up un with
  | nil =>
    rw [make_objects_batch] at h
    simp only [Except.ok.injEq, Prod.mk.injEq] at h
    obtain ⟨h1, h2, h3⟩ := h
    subst h1; subst h2; subst h3
    refine ⟨fun c hc => absurd hc (List.not_mem_nil c), ?_, ?_, ?_⟩ <;>
      exact fun a ha => absurd ha (List.not_mem_nil a)
  | cons c rest ih =>
    rw [make_objects_batch] at h
    cases hrest : make_objects_batch rest map0 ids p t d with
    | error e =>
      rw [hrest] at h
      exact Except.noConfusion h
    | ok triple =>
      obtain ⟨cr2, up2, un2⟩ := triple
      rw [hrest] at h
      simp only [except_bind_ok] at h
      obtain ⟨hall, hcr, hup, hun⟩ := ih cr2 up2 un2 hrest
      cases hl : alookup map0 c.id with
      | none =>
        simp only [hl] at h
        cases hbc : build_asset_create c ids p t d with
        | error e =>
          rw [hbc] at h
          exact Except.noConfusion h
        | ok q =>
          rw [hbc] at h
          simp only [except_bind_ok, Except.ok.injEq, Prod.mk.injEq] at h
          obtain ⟨h1, h2, h3⟩ := h
          subst h1; subst h2; subst h3
          refine ⟨?_, ?_, fun a ha => ?_, fun a ha => ?_⟩
          · intro c2 hc2
            rcases List.mem_cons.mp hc2 with rfl | hmem
            · exact Or.inl ⟨hl, q, hbc, List.mem_cons_self _ _⟩
            · rcases hall c2 hmem with ⟨hn0, q2, hq2, hq2m⟩ | hcase | hcase
              · exact Or.inl ⟨hn0, q2, hq2, List.mem_cons_of_mem _ hq2m⟩
              · exact Or.inr (Or.inl hcase)
              · exact Or.inr (Or.inr hcase)
          · intro a ha
            rcases List.mem_cons.mp ha with rfl | hmem
            · exact ⟨c, List.mem_cons_self _ _, hbc⟩
            · obtain ⟨c2, hc2, hb2⟩ := hcr a hmem
              exact ⟨c2, List.mem_cons_of_mem _ hc2, hb2⟩
          · obtain ⟨c2, hc2, hrest2⟩ := hup a ha
            exact ⟨c2, List.mem_cons_of_mem _ hc2, hrest2⟩
          · obtain ⟨c2, hc2, hrest2⟩ := hun a ha
            exact ⟨c2, List.mem_cons_of_mem _ hc2, hrest2⟩
      | some A =>
        simp only [hl] at h
        by_cases hdif : asset_differs c A = true
        · rw [if_pos hdif] at h
          simp only [Except.ok.injEq, Prod.mk.injEq] at h
          obtain ⟨h1, h2, h3⟩ := h
          subst h1; subst h2; subst h3
          refine ⟨?_, fun a ha => ?_, fun a ha => ?_, fun a ha => ?_⟩
          · intro c2 hc2
            rcases List.mem_cons.mp hc2 with rfl | hmem
            · exact Or.inr (Or.inl ⟨A, hl, hdif, List.mem_cons_self _ _⟩)
            · rcases hall c2 hmem with hcase | ⟨A2, hA2, hd2, hm2⟩ | hcase
              · exact Or.inl hcase
              · exact Or.inr (Or.inl ⟨A2, hA2, hd2, List.mem_cons_of_mem _ hm2⟩)
              · exact Or.inr (Or.inr hcase)
          · obtain ⟨c2, hc2, hrest2⟩ := hcr a ha
            exact ⟨c2, List.mem_cons_of_mem _ hc2, hrest2⟩
          · rcases List.mem_cons.mp ha with rfl | hmem
            · exact ⟨c, List.mem_cons_self _ _, A, hl, rfl⟩
            · obtain ⟨c2, hc2, A2, hA2, ha2⟩ := hup a hmem
              exact ⟨c2, List.mem_cons_of_mem _ hc2, A2, hA2, ha2⟩
          · obtain ⟨c2, hc2, hrest2⟩ := hun a ha
            exact ⟨c2, List.mem_cons_of_mem _ hc2, hrest2⟩
        · rw [if_neg hdif] at h
          simp only [Except.ok.injEq, Prod.mk.injEq] at h
          obtain ⟨h1, h2, h3⟩ := h
          subst h1; subst h2; subst h3
          refine ⟨?_, fun a ha => ?_, fun a ha => ?_, fun a ha => ?_⟩
          · intro c2 hc2
            rcases List.mem_cons.mp hc2 with rfl | hmem
            · exact Or.inr (Or.inr ⟨A, hl, Bool.eq_false_iff.mpr hdif, List.mem_cons_self _ _⟩)
            · rcases hall c2 hmem with hcase | hcase | ⟨A2, hA2, hd2, hm2⟩
              · exact Or.inl hcase
              · exact Or.inr (Or.inl hcase)
              · exact Or.inr (Or.inr ⟨A2, hA2, hd2, List.mem_cons_of_mem _ hm2⟩)
          · obtain ⟨c2, hc2, hrest2⟩ := hcr a ha
            exact ⟨c2, List.mem_cons_of_mem _ hc2, hrest2⟩
          · obtain ⟨c2, hc2, A2, hA2, ha2⟩ := hup a ha
            exact ⟨c2, List.mem_cons_of_mem _ hc2, A2, hA2, ha2⟩
          · rcases List.mem_cons.mp ha with rfl | hmem
            · exact ⟨c, List.mem_cons_self _ _, hl⟩
            · obtain ⟨c2, hc2, hrest2⟩ := hun a hmem
              exact ⟨c2, List.mem_cons_of_mem _ hc2, hrest2⟩

theorem batch_ok_of_parents_mapped (children : List Asset) (map0 : List (Nat × Asset))
    (ids : List (Nat × Nat)) (p : String) (t d : Nat)
    (hpm : parents_mapped children ids d) :
    ∃ cr up un, make_objects_batch children map0 ids p t d = Except.ok (cr, up, un) := by
  induction children with
  | nil => exact ⟨[], [], [], rfl⟩
  | cons c rest ih =>
    obtain ⟨cr, up, un, hrest⟩ :=
      ih (fun hd0 c2 hc2 => hpm hd0 c2 (List.mem_cons_of_mem _ hc2))
    cases hl : alookup map0 c.id with
    | none =>
      have hbc : ∃ q, build_asset_create c ids p t d = Except.ok q := by
        cases d with
        | zero => exact ⟨_, rfl⟩
        | succ e =>
          have h1 := hpm (Nat.succ_pos e) c (List.mem_cons_self _ _)
          cases hpid : c.parent_id with
          | none =>
            rw [hpid] at h1
            exact absurd h1 (by simp)
          | some pid =>
            rw [hpid] at h1
            obtain ⟨did, hdid⟩ := Option.isSome_iff_exists.mp (by simpa using h1)
            refine ⟨created_payload c p t (some did), ?_⟩
            rw [build_asset_create, if_pos (Nat.succ_pos e)]
            simp only [hpid, hdid, except_bind_ok]
            rfl
      obtain ⟨q, hq⟩ := hbc
      refine ⟨q :: cr, up, un, ?_⟩
      rw [make_objects_batch, hrest]
      simp only [except_bind_ok, hl, hq]
    | some A =>
      by_cases hdif : asset_differs c A = true
      · refine ⟨cr, build_asset_update c A ids p t d :: up, un, ?_⟩
        rw [make_objects_batch, hrest]
        simp only [except_bind_ok, hl, if_pos hdif]
      · refine ⟨cr, up, A :: un, ?_⟩
        rw [make_objects_batch, hrest]
        simp only [except_bind_ok, hl, if_neg hdif]

theorem level_step_inv (map0 : List (Nat × Asset)) (p : String) (t : Nat)
    (children : List Asset) (d : Nat) (ids m2 : List (Nat × Nat)) (S S2 : Store)
    (h : level_step map0 p t children d ids S = Except.ok (m2, S2)) :
    ∃ cr up un, make_objects_batch children map0 ids p t d = Except.ok (cr, up, un) ∧
      m2 = existing_mapping (createAux S.nextId cr ++ up ++ un) ids ∧
      S2 = { assets := applyUpdates (S.assets ++ createAux S.nextId cr) up,
             nextId := S.nextId + cr.length } := by
  cases hb : make_objects_batch children map0 ids p t d with
  | error e =>
    rw [level_step, hb] at h
    exact Except.noConfusion h
  | ok triple =>
    obtain ⟨cr, up, un⟩ := triple
    rw [level_step, hb] at h
    simp only [except_bind_ok, Store.create, Store.update, Except.ok.injEq, Prod.mk.injEq] at h
    exact ⟨cr, up, un, rfl, h.1.symm, h.2.symm⟩

theorem level_step_parents_mapped (src : List Asset) (map0 : List (Nat × Asset)) (p : String)
    (t : Nat) (children : List Asset) (d : Nat) (ids m2 : List (Nat × Nat)) (S S2 : Store)
    (hcoh : map_coherent map0)
    (h : level_step map0 p t children d ids S = Except.ok (m2, S2)) :
    parents_mapped (find_children src (children.map some)) m2 (d + 1) := by
  intro _ c2 hc2
  obtain ⟨_, q, hq, hpe⟩ := (mem_find_children_next src children c2).mp hc2
  obtain ⟨cr, up, un, hb, hm2, _⟩ := level_step_inv map0 p t children d ids m2 S S2 h
  have hgoal : (alookup m2 q.id).isSome = true := by
    rw [hm2]
    apply alookup_existing_mapping_isSome
    obtain ⟨hall, _, _, _⟩ := batch_inv children map0 ids p t d cr up un hb
    rcases hall q hq with ⟨_, q0, hq0, hq0m⟩ | ⟨A, hA, _, hAm⟩ | ⟨A, hA, _, hAm⟩
    · have hmeta := (build_asset_create_ok_fields q ids p t d q0 hq0).1
      obtain ⟨a, ha, hameta⟩ := createAux_exists S.nextId cr q0 hq0m
      refine ⟨a, List.mem_append_left _ (List.mem_append_left _ ha), ?_⟩
      exact tagOf_of_new_metadata a q p t (hameta.trans hmeta)
    · refine ⟨build_asset_update q A ids p t d,
        List.mem_append_left _ (List.mem_append_right _ hAm), ?_⟩
      exact tagOf_of_new_metadata _ q p t rfl
    · exact ⟨A, List.mem_append_right _ hAm, hcoh q.id A hA⟩
  rw [hpe]
  exact hgoal

/-- C2: the ordering invariant of the depth loop — it holds for the
seed state (depth 0, root assets, empty mapping), and each successful
loop iteration folds the processed level's source ids into the mapping,
so every asset selected by `find_children` for the next depth has its
parent's source id present in `src_dst_ids` before any payload for it
is built. -/
theorem ordering_invariant (src : List Asset) (map0 : List (Nat × Asset)) (p : String)
    (t : Nat) (children : List Asset) (depth : Nat) (ids m2 : List (Nat × Nat)) (S S2 : Store)
    (hcoh : map_coherent map0) (_hinv : parents_mapped children ids depth)
    (hstep : level_step map0 p t children depth ids S = Except.ok (m2, S2)) :
    parents_mapped (find_children src [none]) [] 0 ∧
    parents_mapped (find_children src (children.map some)) m2 (depth + 1) :=
  ⟨fun h0 => absurd h0 (by decide),
   level_step_parents_mapped src map0 p t children depth ids m2 S S2 hcoh hstep⟩

/-- Witness for C2: processing the root level `[fixSrc1]` against an
empty destination yields a mapping that covers the parent of every
depth-1 child. -/
theorem ordering_invariant_witness :
    parents_mapped (find_children [fixSrc1, fixSrc2] [none]) [] 0 ∧
    parents_mapped (find_children [fixSrc1, fixSrc2] ([fixSrc1].map some)) [(1, 100)] (0 + 1) :=
  ordering_invariant [fixSrc1, fixSrc2] [] "proj" 7 [fixSrc1] 0 [] [(1, 100)]
    { assets := [], nextId := 100 }
    { assets := [{ id := 100
                   external_id := some "root"
                   name := "root"
                   description := none
                   source := none
                   metadata := new_metadata fixSrc1 "proj" 7
                   parent_id := none }], nextId := 101 }
    (fun _ _ h => Option.noConfusion h) (fun h0 => absurd h0 (by decide)) (by decide)

/-! ## Loop execution lemmas -/

theorem loop_runs (src : List Asset) (map0 : List (Nat × Asset)) (p : String) (t : Nat)
    (hcoh : map_coherent map0) :
    ∀ (j d : Nat), levelSeq src (d + j) = [] →
      ∀ ids S, parents_mapped (levelSeq src d) ids d →
      ∃ res, ∀ fuel, j < fuel →
        create_hierarchy_loop src map0 p t fuel d (levelSeq src d) ids S = Except.ok res := by
  intro j
  induction j with
  | zero =>
    intro d hempty ids S _
    rw [Nat.add_zero] at hempty
    refine ⟨(ids, S), ?_⟩
    intro fuel hf
    obtain ⟨f2, rfl⟩ : ∃ f2, fuel = f2 + 1 := ⟨fuel - 1, by omega⟩
    rw [hempty, create_hierarchy_loop]
  | succ i ih =>
    intro d hempty ids S hpm
    cases hl : levelSeq src d with
    | nil =>
      refine ⟨(ids, S), ?_⟩
      intro fuel hf
      obtain ⟨f2, rfl⟩ : ∃ f2, fuel = f2 + 1 := ⟨fuel - 1, by omega⟩
      rw [create_hierarchy_loop]
    | cons c cs =>
      obtain ⟨cr, up, un, hb⟩ :=
        batch_ok_of_parents_mapped (c :: cs) map0 ids p t d (hl ▸ hpm)
      have hstep : level_step map0 p t (c :: cs) d ids S =
          Except.ok (existing_mapping (createAux S.nextId cr ++ up ++ un) ids,
            { assets := applyUpdates (S.assets ++ createAux S.nextId cr) up,
              nextId := S.nextId + cr.length }) := by
        rw [level_step, hb]
        rfl
      have hnext : levelSeq src (d + 1) = find_children src ((c :: cs).map some) := by
        rw [levelSeq, hl]
      have hpm2 : parents_mapped (levelSeq src (d + 1))
          (existing_mapping (createAux S.nextId cr ++ up ++ un) ids) (d + 1) := by
        rw [hnext]
        exact level_step_parents_mapped src map0 p t (c :: cs) d ids _ S _ hcoh hstep
      have hempty2 : levelSeq src ((d + 1) + i) = [] := by
        have harith : (d + 1) + i = d + (i + 1) := by omega
        rw [harith]
        exact hempty
      obtain ⟨res, hres⟩ := ih (d + 1) hempty2
        (existing_mapping (createAux S.nextId cr ++ up ++ un) ids)
        { assets := applyUpdates (S.assets ++ createAux S.nextId cr) up,
          nextId := S.nextId + cr.length } hpm2
      refine ⟨res, ?_⟩
      intro fuel hf
      obtain ⟨f2, rfl⟩ : ∃ f2, fuel = f2 + 1 := ⟨fuel - 1, by omega⟩
      rw [create_hierarchy_loop, hstep, except_bind_ok, ← hnext]
      exact hres f2 (by omega)

/-- C9: for a finite source forest (unique internal ids, acyclic parent
relation) the while-loop of `create_hierarchy` terminates: the children
set computed by `find_children` is empty at every depth beyond the
maximum depth of the source tree, and the loop — run with any
sufficient fuel — returns the final Id Mapping. -/
theorem depth_loop_terminates (src dst : List Asset) (p : String) (t : Nat) (S : Store)
    (hn : (src.map Asset.id).Nodup) (_hacyc : Acyclic src) :
    (∀ d, maxDepth src < d → levelSeq src d = []) ∧
    ∃ res, create_hierarchy src dst p t S = Except.ok res ∧
      ∀ fuel, src.length + 1 ≤ fuel →
        create_hierarchy_loop src (make_id_object_map dst) p t fuel 0 (levelSeq src 0) [] S =
          Except.ok res := by
  refine ⟨fun d hd => levelSeq_empty_of_maxDepth src hn d hd, ?_⟩
  obtain ⟨e, hle, hempty⟩ := exists_empty_level src hn
  have h0 : levelSeq src (0 + e) = [] := by rw [Nat.zero_add]; exact hempty
  obtain ⟨res, hres⟩ := loop_runs src (make_id_object_map dst) p t
    (make_id_object_map_coherent dst) e 0 h0 [] S (fun hcon => absurd hcon (by decide))
  refine ⟨res, ?_, fun fuel hf => hres fuel (by omega)⟩
  rw [create_hierarchy]
  exact hres (src.length + 1) (by omega)

/-- Witness for C9: a two-asset root/child forest replicated into an
empty destination. -/
theorem depth_loop_terminates_witness :
    (∀ d, maxDepth [fixSrc1, fixSrc2] < d → levelSeq [fixSrc1, fixSrc2] d = []) ∧
    ∃ res, create_hierarchy [fixSrc1, fixSrc2] [] "proj" 7 { assets := [], nextId := 100 } =
        Except.ok res ∧
      ∀ fuel, [fixSrc1, fixSrc2].length + 1 ≤ fuel →
        create_hierarchy_loop [fixSrc1, fixSrc2] (make_id_object_map []) "proj" 7 fuel 0
          (levelSeq [fixSrc1, fixSrc2] 0) [] { assets := [], nextId := 100 } =
          Except.ok res :=
  depth_loop_terminates [fixSrc1, fixSrc2] [] "proj" 7 { assets := [], nextId := 100 }
    (by decide) (by decide)

/-! ## Mapping-domain lemma for the loop -/

theorem loop_keys (src : List Asset) (map0 : List (Nat × Asset)) (p : String) (t : Nat)
    (hcoh : map_coherent map0) :
    ∀ (fuel d : Nat) (ids : List (Nat × Nat)) (S : Store) (m : List (Nat × Nat)) (S2 : Store),
      create_hierarchy_loop src map0 p t fuel d (levelSeq src d) ids S = Except.ok (m, S2) →
      ∀ k, (alookup m k).isSome = true →
        (alookup ids k).isSome = true ∨ ∃ e c, c ∈ levelSeq src e ∧ c.id = k := by
  intro fuel
  induction fuel with
  | zero =>
    intro d ids S m S2 h
    rw [create_hierarchy_loop] at h
    exact absurd h (by simp)
  | succ f ih =>
    intro d ids S m S2 h k hk
    cases hl : levelSeq src d with
    | nil =>
      rw [hl, create_hierarchy_loop] at h
      simp only [Except.ok.injEq, Prod.mk.injEq] at h
      rw [h.1]
      exact Or.inl hk
    | cons c cs =>
      rw [hl, create_hierarchy_loop] at h
      cases hstep : level_step map0 p t (c :: cs) d ids S with
      | error e =>
        rw [hstep] at h
        exact absurd h (by simp [except_bind_error])
      | ok pr =>
        obtain ⟨m1, S1⟩ := pr
        rw [hstep, except_bind_ok] at h
        have hnext : levelSeq src (d + 1) = find_children src ((c :: cs).map some) := by
          rw [levelSeq, hl]
        rw [← hnext] at h
        rcases ih (d + 1) m1 S1 m S2 h k hk with hm1 | hfound
        · obtain ⟨cr, up, un, hb, hm2, _⟩ :=
            level_step_inv map0 p t (c :: cs) d ids m1 S S1 hstep
          rw [hm2, alookup_existing_mapping] at hm1
          cases hlt : lastTagged (createAux S.nextId cr ++ up ++ un) k with
          | none =>
            rw [hlt] at hm1
            exact Or.inl hm1
          | some A =>
            obtain ⟨hAmem, hAtag⟩ := lastTagged_mem _ k A hlt
            right
            obtain ⟨_, hcr, hup, hun⟩ := batch_inv (c :: cs) map0 ids p t d cr up un hb
            rcases List.mem_append.mp hAmem with hA1 | hAun
            · rcases List.mem_append.mp hA1 with hAcr | hAup
              · obtain ⟨p0, hp0, hAmeta⟩ := mem_createAux S.nextId cr A hAcr
                obtain ⟨c2, hc2, hb2⟩ := hcr p0 hp0
                have hmeta := (build_asset_create_ok_fields c2 ids p t d p0 hb2).1
                have htag2 : tagOf A = some c2.id :=
                  tagOf_of_new_metadata A c2 p t (hAmeta.trans hmeta)
                rw [htag2] at hAtag
                exact ⟨d, c2, by rw [hl]; exact hc2, Option.some_injective _ hAtag⟩
              · obtain ⟨c2, hc2, A2, _, hAeq⟩ := hup A hAup
                have htag2 : tagOf A = some c2.id := by
                  rw [hAeq]
                  exact tagOf_of_new_metadata _ c2 p t rfl
                rw [htag2] at hAtag
                exact ⟨d, c2, by rw [hl]; exact hc2, Option.some_injective _ hAtag⟩
            · obtain ⟨c2, hc2, hA2⟩ := hun A hAun
              have htag2 : tagOf A = some c2.id := hcoh c2.id A hA2
              rw [htag2] at hAtag
              exact ⟨d, c2, by rw [hl]; exact hc2, Option.some_injective _ hAtag⟩
        · exact Or.inr hfound

theorem mem_levelSeq_iff_HasDepth (src : List Asset) (d : Nat) :
    ∀ a, a ∈ levelSeq src d ↔ HasDepth src a d := by
  induction d with
  | zero =>
    intro a
    rw [mem_levelSeq_zero]
    constructor
    · rintro ⟨h1, h2⟩
      exact HasDepth.root a h1 h2
    · intro h
      cases h with
      | root _ h1 h2 => exact ⟨h1, h2⟩
  | succ e ih =>
    intro a
    rw [mem_levelSeq_succ]
    constructor
    · rintro ⟨h1, p0, hp0, hpe⟩
      exact HasDepth.child a p0 e h1 (mem_levelSeq_mem_src src e p0 hp0) hpe ((ih p0).mp hp0)
    · intro h
      cases h with
      | child _ p0 d h1 h2 h3 h4 => exact ⟨h1, p0, (ih p0).mpr h4, h3⟩

/-- C10: the depth levels walked by `create_hierarchy` are exactly the
assets at each exact root-distance; an asset not reachable from any
root is selected at no depth, and every key of the returned Id Mapping
is the id of some (reachable) selected asset. -/
theorem unreachable_sources_skipped (src : List Asset) :
    (∀ a d, a ∈ levelSeq src d ↔ HasDepth src a d) ∧
    (∀ a, (¬ ∃ d, HasDepth src a d) → ∀ d, a ∉ levelSeq src d) ∧
    (∀ (dst : List Asset) (p : String) (t : Nat) (S : Store) (m : List (Nat × Nat)) (S2 : Store),
      create_hierarchy src dst p t S = Except.ok (m, S2) →
      ∀ k, (alookup m k).isSome = true →
        ∃ d c, c ∈ levelSeq src d ∧ c.id = k ∧ HasDepth src c d) := by
  refine ⟨fun a d => mem_levelSeq_iff_HasDepth src d a, ?_, ?_⟩
  · intro a hno d hmem
    exact hno ⟨d, (mem_levelSeq_iff_HasDepth src d a).mp hmem⟩
  · intro dst p t S m S2 h k hk
    have h0 : create_hierarchy_loop src (make_id_object_map dst) p t (src.length + 1) 0
        (levelSeq src 0) [] S = Except.ok (m, S2) := h
    rcases loop_keys src (make_id_object_map dst) p t (make_id_object_map_coherent dst)
      (src.length + 1) 0 [] S m S2 h0 k hk with hleft | ⟨e, c, hc, hid⟩
    · exact absurd hleft (by simp [alookup])
    · exact ⟨e, c, hc, hid, (mem_levelSeq_iff_HasDepth src e c).mp hc⟩

/-- Witness for C10: on the two-asset forest, the Id Mapping key 1
produced by `create_hierarchy` is the id of a selected, root-reachable
source asset. -/
theorem unreachable_sources_skipped_witness :
    ∃ d c, c ∈ levelSeq [fixSrc1, fixSrc2] d ∧ c.id = 1 ∧ HasDepth [fixSrc1, fixSrc2] c d :=
  (unreachable_sources_skipped [fixSrc1, fixSrc2]).2.2 [] "proj" 7
    { assets := [], nextId := 100 } [(1, 100), (2, 101)]
    { assets := [{ id := 100
                   external_id := some "root"
                   name := "root"
                   description := none
                   source := none
                   metadata := new_metadata fixSrc1 "proj" 7
                   parent_id := none },
                 { id := 101
                   external_id := some "child"
                   name := "child"
                   description := none
                   source := none
                   metadata := new_metadata fixSrc2 "proj" 7
                   parent_id := some 100 }], nextId := 102 }
    (by decide) 1 (by decide)

/-! ## lastTagged toolkit -/

theorem tagOf_congr (a b : Asset) (h : a.metadata = b.metadata) : tagOf a = tagOf b := by
  rw [tagOf, tagOf, h]

theorem lastTagged_none (l : List Asset) (k : Nat) (h : ∀ a ∈ l, tagOf a ≠ some k) :
    lastTagged l k = none := by
  induction l with
  | nil => rfl
  | cons b rest ih =>
    rw [lastTagged, ih (fun a ha => h a (List.mem_cons_of_mem _ ha))]
    simp [Option.orElse, h b (List.mem_cons_self _ _)]

theorem lastTagged_eq_of_pairwise (l : List Asset) (k : Nat)
    (hpw : l.Pairwise (fun a b => tagOf a ≠ tagOf b))
    (a : Asset) (ha : a ∈ l) (ht : tagOf a = some k) : lastTagged l k = some a := by
  induction l with
  | nil => exact absurd ha (List.not_mem_nil a)
  | cons b rest ih =>
    rw [List.pairwise_cons] at hpw
    rcases List.mem_cons.mp ha with rfl | hmem
    · have hnone : lastTagged rest k = none := by
        apply lastTagged_none
        intro a2 ha2 hta2
        exact hpw.1 a2 ha2 (ht.trans hta2.symm)
      rw [lastTagged, hnone]
      simp [Option.orElse, ht]
    · rw [lastTagged, ih hpw.2 hmem]
      simp [Option.orElse]

theorem lastTagged_append (l1 l2 : List Asset) (k : Nat) :
    lastTagged (l1 ++ l2) k = ((lastTagged l2 k).orElse (fun _ => lastTagged l1 k)) := by
  induction l1 with
  | nil =>
    rw [List.nil_append]
    cases lastTagged l2 k <;> simp [Option.orElse, lastTagged]
  | cons b rest ih =>
    rw [List.cons_append, lastTagged, ih, lastTagged]
    cases lastTagged l2 k <;> cases lastTagged rest k <;> simp [Option.orElse]

/-! ## createAux lemmas -/

theorem createAux_tags (n : Nat) (ps : List Asset) :
    (createAux n ps).map tagOf = ps.map tagOf := by
  induction ps generalizing n with
  | nil => rfl
  | cons q qs ih =>
    rw [createAux, List.map_cons, List.map_cons, ih]
    rfl

theorem createAux_id_bounds (n : Nat) (ps : List Asset) (a : Asset) (ha : a ∈ createAux n ps) :
    n ≤ a.id ∧ a.id < n + ps.length := by
  induction ps generalizing n with
  | nil => exact absurd ha (List.not_mem_nil a)
  | cons q qs ih =>
    rw [createAux] at ha
    rw [List.length_cons]
    rcases List.mem_cons.mp ha with rfl | hmem
    · constructor <;> simp
    · have := ih (n + 1) hmem
      omega

theorem createAux_ids_nodup (n : Nat) (ps : List Asset) :
    ((createAux n ps).map Asset.id).Nodup := by
  induction ps generalizing n with
  | nil => exact List.Pairwise.nil
  | cons q qs ih =>
    rw [createAux, List.map_cons, List.nodup_cons]
    refine ⟨?_, ih (n + 1)⟩
    intro hmem
    obtain ⟨b, hb, hbid⟩ := List.mem_map.mp hmem
    have hbound := createAux_id_bounds (n + 1) qs b hb
    have hn : ({ q with id := n } : Asset).id = n := rfl
    rw [hn] at hbid
    omega

theorem createAux_pairwise_tags (n : Nat) (ps : List Asset)
    (hpw : ps.Pairwise (fun a b => tagOf a ≠ tagOf b)) :
    (createAux n ps).Pairwise (fun a b => tagOf a ≠ tagOf b) := by
  induction ps generalizing n with
  | nil => exact List.Pairwise.nil
  | cons q qs ih =>
    rw [List.pairwise_cons] at hpw
    rw [createAux, List.pairwise_cons]
    refine ⟨?_, ih (n + 1) hpw.2⟩
    intro b hb
    obtain ⟨q2, hq2, hmeta⟩ := mem_createAux (n + 1) qs b hb
    have ht : tagOf b = tagOf q2 := tagOf_congr b q2 hmeta
    have hhead : tagOf ({ q with id := n } : Asset) = tagOf q := rfl
    rw [hhead, ht]
    exact hpw.1 q2 hq2

theorem createAux_lastTagged (ps : List Asset) :
    ∀ (n k : Nat),
    (lastTagged (createAux n ps) k = none ∧ lastTagged ps k = none) ∨
    (∃ A q, lastTagged (createAux n ps) k = some A ∧ lastTagged ps k = some q ∧
      A.metadata = q.metadata ∧ A.external_id = q.external_id ∧ A.name = q.name ∧
      A.description = q.description ∧ A.source = q.source ∧ A.parent_id = q.parent_id) := by
  induction ps with
  | nil => exact fun n k => Or.inl ⟨rfl, rfl⟩
  | cons q qs ih =>
    intro n k
    rw [createAux, lastTagged, lastTagged]
    have hhead : tagOf ({ q with id := n } : Asset) = tagOf q := rfl
    rcases ih (n + 1) k with ⟨h1, h2⟩ | ⟨A, q2, h1, h2, hf⟩
    · rw [h1, h2]
      by_cases ht : tagOf q = some k
      · right
        exact ⟨{ q with id := n }, q, by simp [Option.orElse, hhead, ht],
          by simp [Option.orElse, ht], rfl, rfl, rfl, rfl, rfl, rfl⟩
      · left
        constructor <;> simp [Option.orElse, hhead, ht]
    · rw [h1, h2]
      right
      exact ⟨A, q2, by simp [Option.orElse], by simp [Option.orElse], hf⟩

/-! ## replaceId and applyUpdates lemmas -/

theorem replaceId_map_id (l : List Asset) (u : Asset) :
    (replaceId l u).map Asset.id = l.map Asset.id := by
  rw [replaceId, List.map_map]
  apply List.map_congr_left
  intro a _
  by_cases h : a.id = u.id
  · simp [Function.comp, h]
  · simp [Function.comp, h]

theorem mem_replaceId (l : List Asset) (u a : Asset) (ha : a ∈ replaceId l u) :
    (a = u ∧ ∃ b ∈ l, b.id = u.id) ∨ a ∈ l := by
  rw [replaceId] at ha
  obtain ⟨b, hb, hab⟩ := List.mem_map.mp ha
  by_cases h : b.id = u.id
  · rw [if_pos h] at hab
    exact Or.inl ⟨hab.symm, b, hb, h⟩
  · rw [if_neg h] at hab
    exact Or.inr (hab ▸ hb)

theorem lastTagged_replaceId (l : List Asset) (u : Asset) (k : Nat)
    (htag : ∀ a ∈ l, a.id = u.id → tagOf a = tagOf u) :
    lastTagged (replaceId l u) k =
      (lastTagged l k).map (fun A => if A.id = u.id then u else A) := by
  induction l with
  | nil => rfl
  | cons b rest ih =>
    have hfold : replaceId (b :: rest) u =
        (if b.id = u.id then u else b) :: replaceId rest u := rfl
    rw [hfold, lastTagged, lastTagged,
      ih (fun a ha hid => htag a (List.mem_cons_of_mem _ ha) hid)]
    cases hl : lastTagged rest k with
    | some A => simp [Option.orElse]
    | none =>
      by_cases hb : b.id = u.id
      · have htb : tagOf b = tagOf u := htag b (List.mem_cons_self _ _) hb
        rw [if_pos hb]
        by_cases ht : tagOf b = some k
        · have htu : tagOf u = some k := htb ▸ ht
          simp [Option.orElse, ht, htu, hb]
        · have htu : ¬ tagOf u = some k := htb ▸ ht
          simp [Option.orElse, ht, htu]
      · rw [if_neg hb]
        by_cases ht : tagOf b = some k
        · simp [Option.orElse, ht, hb]
        · simp [Option.orElse, ht]

theorem applyUpdates_map_id (ps : List Asset) : ∀ (l : List Asset),
    (applyUpdates l ps).map Asset.id = l.map Asset.id := by
  induction ps with
  | nil => exact fun l => rfl
  | cons u qs ih =>
    intro l
    have hfold : applyUpdates l (u :: qs) = applyUpdates (replaceId l u) qs := rfl
    rw [hfold, ih (replaceId l u), replaceId_map_id]

theorem mem_applyUpdates (ps : List Asset) : ∀ (l : List Asset) (a : Asset),
    a ∈ applyUpdates l ps → a ∈ l ∨ a ∈ ps := by
  induction ps with
  | nil => exact fun l a ha => Or.inl ha
  | cons u qs ih =>
    intro l a ha
    have hfold : applyUpdates l (u :: qs) = applyUpdates (replaceId l u) qs := rfl
    rw [hfold] at ha
    rcases ih (replaceId l u) a ha with hrep | hqs
    · rcases mem_replaceId l u a hrep with ⟨rfl, _⟩ | hl
      · exact Or.inr (List.mem_cons_self _ _)
      · exact Or.inl hl
    · exact Or.inr (List.mem_cons_of_mem _ hqs)

theorem lastTagged_applyUpdates (ps : List Asset) : ∀ (l : List Asset) (k : Nat),
    (∀ u ∈ ps, ∀ a ∈ l, a.id = u.id → tagOf a = tagOf u) →
    ((ps.map Asset.id).Nodup) →
    lastTagged (applyUpdates l ps) k =
      (lastTagged l k).map (fun A =>
        match ps.find? (fun u => u.id == A.id) with
        | some u => u
        | none => A) := by
  induction ps with
  | nil =>
    intro l k _ _
    have h : applyUpdates l [] = l := rfl
    rw [h]
    cases lastTagged l k <;> rfl
  | cons u qs ih =>
    intro l k htag hnd
    rw [List.map_cons, List.nodup_cons] at hnd
    have hfold : applyUpdates l (u :: qs) = applyUpdates (replaceId l u) qs := rfl
    have htag1 : ∀ a ∈ l, a.id = u.id → tagOf a = tagOf u :=
      fun a ha h => htag u (List.mem_cons_self _ _) a ha h
    have htag2 : ∀ u2 ∈ qs, ∀ a ∈ replaceId l u, a.id = u2.id → tagOf a = tagOf u2 := by
      intro u2 hu2 a ha hid
      rcases mem_replaceId l u a ha with ⟨rfl, b, hb, hbid⟩ | hal
      · have h1 : tagOf b = tagOf a := htag1 b hb hbid
        have h2 : tagOf b = tagOf u2 :=
          htag u2 (List.mem_cons_of_mem _ hu2) b hb (by rw [hbid, hid])
        rw [← h1, h2]
      · exact htag u2 (List.mem_cons_of_mem _ hu2) a hal hid
    rw [hfold, ih (replaceId l u) k htag2 hnd.2, lastTagged_replaceId l u k htag1,
      Option.map_map]
    cases hA : lastTagged l k with
    | none => rfl
    | some A =>
      simp only [Option.map_some', Function.comp_apply]
      by_cases hid : A.id = u.id
      · rw [if_pos hid]
        have hfq : qs.find? (fun u2 => u2.id == u.id) = none := by
          rw [List.find?_eq_none]
          intro x hx
          simp only [beq_eq_false_iff_ne, ne_eq, beq_iff_eq]
          intro hxe
          exact hnd.1 (hxe ▸ List.mem_map_of_mem Asset.id hx)
        have hfc : (u :: qs).find? (fun u2 => u2.id == A.id) = some u := by
          rw [List.find?]
          have : (u.id == A.id) = true := by simp [hid]
          rw [this]
        rw [hfc]
        have : qs.find? (fun u2 => u2.id == u.id) = none := hfq
        rw [this]
      · rw [if_neg hid]
        have hfc : (u :: qs).find? (fun u2 => u2.id == A.id) =
            qs.find? (fun u2 => u2.id == A.id) := by
          rw [List.find?]
          have : (u.id == A.id) = false := by
            simp only [beq_eq_false_iff_ne, ne_eq]
            exact fun he => hid he.symm
          rw [this]
        rw [hfc]

/-! ## Batch closed form and outcome-class lemmas -/

theorem batch_closed_form (children : List Asset) (map0 : List (Nat × Asset))
    (ids : List (Nat × Nat)) (p : String) (t d : Nat) (cr up un : List Asset)
    (h : make_objects_batch children map0 ids p t d = Except.ok (cr, up, un)) :
    cr = children.filterMap (crFn map0 ids p t d) ∧
    up = children.filterMap (upFn map0 ids p t d) ∧
    un = children.filterMap (unFn map0) := by
  induction children generalizing cr up un with
  | nil =>
    rw [make_objects_batch] at h
    simp only [Except.ok.injEq, Prod.mk.injEq] at h
    exact ⟨h.1.symm, h.2.1.symm, h.2.2.symm⟩
  | cons c rest ih =>
    rw [make_objects_batch] at h
    cases hrest : make_objects_batch rest map0 ids p t d with
    | error e =>
      rw [hrest] at h
      exact Except.noConfusion h
    | ok triple =>
      obtain ⟨cr2, up2, un2⟩ := triple
      rw [hrest] at h
      simp only [except_bind_ok] at h
      obtain ⟨hc1, hc2, hc3⟩ := ih cr2 up2 un2 hrest
      rw [List.filterMap_cons, List.filterMap_cons, List.filterMap_cons]
      cases hl : alookup map0 c.id with
      | none =>
        simp only [hl] at h
        cases hbc : build_asset_create c ids p t d with
        | error e =>
          rw [hbc] at h
          exact Except.noConfusion h
        | ok q =>
          rw [hbc] at h
          simp only [except_bind_ok, Except.ok.injEq, Prod.mk.injEq] at h
          have hf1 : crFn map0 ids p t d c = some q := by
            rw [crFn]
            simp only [hl, hbc]
            rfl
          have hf2 : upFn map0 ids p t d c = none := by
            rw [upFn]
            simp only [hl]
          have hf3 : unFn map0 c = none := by
            rw [unFn]
            simp only [hl]
          rw [hf1, hf2, hf3, ← h.1, ← h.2.1, ← h.2.2, hc1, hc2, hc3]
          exact ⟨rfl, rfl, rfl⟩
      | some A =>
        simp only [hl] at h
        by_cases hdif : asset_differs c A = true
        · rw [if_pos hdif] at h
          simp only [Except.ok.injEq, Prod.mk.injEq] at h
          have hf1 : crFn map0 ids p t d c = none := by
            rw [crFn]
            simp only [hl]
          have hf2 : upFn map0 ids p t d c =
              some (build_asset_update c A ids p t d) := by
            rw [upFn]
            simp only [hl]
            rw [if_pos hdif]
          have hf3 : unFn map0 c = none := by
            rw [unFn]
            simp only [hl]
            rw [if_pos hdif]
          rw [hf1, hf2, hf3, ← h.1, ← h.2.1, ← h.2.2, hc1, hc2, hc3]
          exact ⟨rfl, rfl, rfl⟩
        · rw [if_neg hdif] at h
          simp only [Except.ok.injEq, Prod.mk.injEq] at h
          have hf1 : crFn map0 ids p t d c = none := by
            rw [crFn]
            simp only [hl]
          have hf2 : upFn map0 ids p t d c = none := by
            rw [upFn]
            simp only [hl]
            rw [if_neg hdif]
          have hf3 : unFn map0 c = some A := by
            rw [unFn]
            simp only [hl]
            rw [if_neg hdif]
          rw [hf1, hf2, hf3, ← h.1, ← h.2.1, ← h.2.2, hc1, hc2, hc3]
          exact ⟨rfl, rfl, rfl⟩

theorem crFn_eq (map0 : List (Nat × Asset)) (ids : List (Nat × Nat)) (p : String) (t d : Nat)
    (c q : Asset) (h : crFn map0 ids p t d c = some q) :
    alookup map0 c.id = none ∧ build_asset_create c ids p t d = Except.ok q := by
  rw [crFn] at h
  cases hl : alookup map0 c.id with
  | none =>
    simp only [hl] at h
    refine ⟨rfl, ?_⟩
    cases hbc : build_asset_create c ids p t d with
    | error e =>
      rw [hbc] at h
      exact Option.noConfusion h
    | ok q2 =>
      rw [hbc] at h
      have : q2 = q := Option.some_injective _ h
      rw [← this]
  | some A =>
    simp only [hl] at h
    exact Option.noConfusion h

theorem upFn_eq (map0 : List (Nat × Asset)) (ids : List (Nat × Nat)) (p : String) (t d : Nat)
    (c u : Asset) (h : upFn map0 ids p t d c = some u) :
    ∃ A, alookup map0 c.id = some A ∧ asset_differs c A = true ∧
      u = build_asset_update c A ids p t d ∧ u.id = A.id := by
  rw [upFn] at h
  cases hl : alookup map0 c.id with
  | none =>
    simp only [hl] at h
    exact Option.noConfusion h
  | some A =>
    simp only [hl] at h
    by_cases hdif : asset_differs c A = true
    · rw [if_pos hdif] at h
      have hu : build_asset_update c A ids p t d = u := Option.some_injective _ h
      exact ⟨A, rfl, hdif, hu.symm, by rw [← hu]; rfl⟩
    · rw [if_neg hdif] at h
      exact Option.noConfusion h

theorem unFn_eq (map0 : List (Nat × Asset)) (c A : Asset) (h : unFn map0 c = some A) :
    alookup map0 c.id = some A ∧ asset_differs c A = false := by
  rw [unFn] at h
  cases hl : alookup map0 c.id with
  | none =>
    simp only [hl] at h
    exact Option.noConfusion h
  | some A2 =>
    simp only [hl] at h
    by_cases hdif : asset_differs c A2 = true
    · rw [if_pos hdif] at h
      exact Option.noConfusion h
    · rw [if_neg hdif] at h
      have : A2 = A := Option.some_injective _ h
      subst this
      exact ⟨rfl, Bool.eq_false_iff.mpr hdif⟩

theorem crFn_tag (map0 : List (Nat × Asset)) (ids : List (Nat × Nat)) (p : String) (t d : Nat)
    (c q : Asset) (h : crFn map0 ids p t d c = some q) : tagOf q = some c.id := by
  obtain ⟨_, hbc⟩ := crFn_eq map0 ids p t d c q h
  exact tagOf_of_new_metadata q c p t (build_asset_create_ok_fields c ids p t d q hbc).1

theorem upFn_tag (map0 : List (Nat × Asset)) (ids : List (Nat × Nat)) (p : String) (t d : Nat)
    (c u : Asset) (h : upFn map0 ids p t d c = some u) : tagOf u = some c.id := by
  obtain ⟨A, _, _, hu, _⟩ := upFn_eq map0 ids p t d c u h
  rw [hu]
  exact tagOf_of_new_metadata _ c p t rfl

theorem unFn_tag (map0 : List (Nat × Asset)) (hcoh : map_coherent map0) (c A : Asset)
    (h : unFn map0 c = some A) : tagOf A = some c.id :=
  hcoh c.id A (unFn_eq map0 c A h).1

theorem pairwise_tags_filterMap (children : List Asset) (g : Asset → Option Asset)
    (hch : (children.map Asset.id).Nodup)
    (hg : ∀ c u, c ∈ children → g c = some u → tagOf u = some c.id) :
    (children.filterMap g).Pairwise (fun a b => tagOf a ≠ tagOf b) := by
  induction children with
  | nil => exact List.Pairwise.nil
  | cons c rest ih =>
    rw [List.map_cons, List.nodup_cons] at hch
    rw [List.filterMap_cons]
    cases hgc : g c with
    | none => exact ih hch.2 (fun c2 u hc2 hg2 => hg c2 u (List.mem_cons_of_mem _ hc2) hg2)
    | some u =>
      rw [List.pairwise_cons]
      refine ⟨?_, ih hch.2 (fun c2 u2 hc2 hg2 => hg c2 u2 (List.mem_cons_of_mem _ hc2) hg2)⟩
      intro b hb
      obtain ⟨c2, hc2, hgc2⟩ := List.mem_filterMap.mp hb
      rw [hg c u (List.mem_cons_self _ _) hgc, hg c2 b (List.mem_cons_of_mem _ hc2) hgc2]
      intro he
      have hce : c.id = c2.id := Option.some_injective _ he
      exact hch.1 (hce ▸ List.mem_map_of_mem Asset.id hc2)

theorem nodup_ids_filterMap (children : List Asset) (g : Asset → Option Asset)
    (hch : (children.map Asset.id).Nodup)
    (hinj : ∀ c1 c2 u1 u2, c1 ∈ children → c2 ∈ children → g c1 = some u1 → g c2 = some u2 →
      u1.id = u2.id → c1 = c2) :
    ((children.filterMap g).map Asset.id).Nodup := by
  induction children with
  | nil => exact List.Pairwise.nil
  | cons c rest ih =>
    rw [List.map_cons, List.nodup_cons] at hch
    rw [List.filterMap_cons]
    cases hgc : g c with
    | none =>
      exact ih hch.2 (fun c1 c2 u1 u2 h1 h2 => hinj c1 c2 u1 u2
        (List.mem_cons_of_mem _ h1) (List.mem_cons_of_mem _ h2))
    | some u =>
      rw [List.map_cons, List.nodup_cons]
      refine ⟨?_, ih hch.2 (fun c1 c2 u1 u2 h1 h2 => hinj c1 c2 u1 u2
        (List.mem_cons_of_mem _ h1) (List.mem_cons_of_mem _ h2))⟩
      intro hmem
      obtain ⟨b, hb, hbid⟩ := List.mem_map.mp hmem
      obtain ⟨c2, hc2, hgc2⟩ := List.mem_filterMap.mp hb
      have : c = c2 := hinj c c2 u b (List.mem_cons_self _ _) (List.mem_cons_of_mem _ hc2)
        hgc hgc2 hbid.symm
      exact hch.1 (this ▸ List.mem_map_of_mem Asset.id hc2)

theorem mem_filterMap_tags (children : List Asset) (g : Asset → Option Asset)
    (hg : ∀ c u, c ∈ children → g c = some u → tagOf u = some c.id)
    (a : Asset) (ha : a ∈ children.filterMap g) :
    ∃ c ∈ children, g c = some a ∧ tagOf a = some c.id := by
  obtain ⟨c, hc, hgc⟩ := List.mem_filterMap.mp ha
  exact ⟨c, hc, hgc, hg c a hc hgc⟩

theorem src_id_inj (src : List Asset) (hsrc : (src.map Asset.id).Nodup)
    (a b : Asset) (ha : a ∈ src) (hb : b ∈ src) (hid : a.id = b.id) : a = b :=
  List.inj_on_of_nodup_map hsrc ha hb hid

theorem level_id_not_processed (src : List Asset) (hsrc : (src.map Asset.id).Nodup)
    (d : Nat) (c : Asset) (hc : c ∈ levelSeq src d) : ¬ processedBefore src d c.id := by
  rintro ⟨e, he, c2, hc2, hid⟩
  have : c2 = c := src_id_inj src hsrc c2 c
    (mem_levelSeq_mem_src src e c2 hc2) (mem_levelSeq_mem_src src d c hc) hid
  subst this
  have := levelSeq_disjoint src hsrc c2 e d hc2 hc
  omega

theorem run_inv_parents_mapped (src : List Asset) (D0 : Store) (d : Nat)
    (m : List (Nat × Nat)) (S : Store) (hinv : RunInv src D0 d m S) :
    parents_mapped (levelSeq src d) m d := by
  intro hd c hc
  obtain ⟨e, rfl⟩ : ∃ e, d = e + 1 := ⟨d - 1, by omega⟩
  obtain ⟨_, q, hq, hpe⟩ := (mem_levelSeq_succ src e c).mp hc
  rw [hpe]
  have hps : processedBefore src (e + 1) q.id := ⟨e, by omega, q, hq, rfl⟩
  have := (hinv.2.2.1 q.id).mpr hps
  simpa using this

theorem find?_id_eq_none (ps : List Asset) (x : Nat) (h : ∀ u ∈ ps, u.id ≠ x) :
    ps.find? (fun u => u.id == x) = none := by
  rw [List.find?_eq_none]
  intro u hu
  simp [h u hu]

theorem up_member_facts (src : List Asset) (D0 : Store) (d : Nat) (m : List (Nat × Nat))
    (S : Store) (p : String) (t : Nat)
    (hsrc : (src.map Asset.id).Nodup)
    (hW4 : ∀ k, ¬ processedBefore src d k → lastTagged S.assets k = lastTagged D0.assets k)
    (c2 u : Asset) (hc2 : c2 ∈ levelSeq src d)
    (hfn : upFn (make_id_object_map D0.assets) m p t d c2 = some u) :
    ∃ A2, u.id = A2.id ∧ tagOf u = some c2.id ∧ A2 ∈ S.assets ∧ tagOf A2 = some c2.id ∧
      lastTagged S.assets c2.id = some A2 := by
  obtain ⟨A2, hA2, _, _, huid⟩ := upFn_eq _ m p t d c2 u hfn
  have hnp := level_id_not_processed src hsrc d c2 hc2
  have hlast : lastTagged S.assets c2.id = some A2 := by
    rw [hW4 c2.id hnp, ← alookup_make_id_object_map]
    exact hA2
  obtain ⟨hmem, htag⟩ := lastTagged_mem _ _ _ hlast
  exact ⟨A2, huid, upFn_tag _ m p t d c2 u hfn, hmem, htag, hlast⟩

theorem un_member_facts (src : List Asset) (D0 : Store) (d : Nat) (S : Store)
    (hsrc : (src.map Asset.id).Nodup)
    (hW4 : ∀ k, ¬ processedBefore src d k → lastTagged S.assets k = lastTagged D0.assets k)
    (c2 A : Asset) (hc2 : c2 ∈ levelSeq src d)
    (hfn : unFn (make_id_object_map D0.assets) c2 = some A) :
    asset_differs c2 A = false ∧ A ∈ S.assets ∧ tagOf A = some c2.id ∧
      lastTagged S.assets c2.id = some A := by
  obtain ⟨hA, hdif⟩ := unFn_eq _ c2 A hfn
  have hnp := level_id_not_processed src hsrc d c2 hc2
  have hlast : lastTagged S.assets c2.id = some A := by
    rw [hW4 c2.id hnp, ← alookup_make_id_object_map]
    exact hA
  obtain ⟨hmem, htag⟩ := lastTagged_mem _ _ _ hlast
  exact ⟨hdif, hmem, htag, hlast⟩

theorem run_inv_step (src : List Asset) (D0 : Store) (p : String) (t : Nat)
    (hsrc : (src.map Asset.id).Nodup)
    (d : Nat) (m m2 : List (Nat × Nat)) (S S2 : Store)
    (hinv : RunInv src D0 d m S)
    (hstep : level_step (make_id_object_map D0.assets) p t (levelSeq src d) d m S =
      Except.ok (m2, S2)) :
    RunInv src D0 (d + 1) m2 S2 := by
  obtain ⟨⟨hSnd, hSbound⟩, hnext0, hdom, hW3, hW4⟩ := hinv
  obtain ⟨cr, up, un, hb, hm2, hS2⟩ := level_step_inv _ p t _ d m m2 S S2 hstep
  have hS2assets : S2.assets = applyUpdates (S.assets ++ createAux S.nextId cr) up := by
    rw [hS2]
  have hS2next : S2.nextId = S.nextId + cr.length := by rw [hS2]
  obtain ⟨hcr, hup, hun⟩ := batch_closed_form _ _ m p t d cr up un hb
  obtain ⟨hall, _, _, _⟩ := batch_inv _ _ m p t d cr up un hb
  have hcoh := make_id_object_map_coherent D0.assets
  have hch : ((levelSeq src d).map Asset.id).Nodup :=
    ((levelSeq_sublist src d).map Asset.id).nodup hsrc
  have hchInj : ∀ c1 c2, c1 ∈ levelSeq src d → c2 ∈ levelSeq src d → c1.id = c2.id → c1 = c2 :=
    fun c1 c2 h1 h2 he => List.inj_on_of_nodup_map hch h1 h2 he
  -- tags of the create payloads and of the created assets
  have hcrTag : ∀ q ∈ cr, ∃ c2 ∈ levelSeq src d,
      crFn (make_id_object_map D0.assets) m p t d c2 = some q ∧ tagOf q = some c2.id := by
    intro q hq
    rw [hcr] at hq
    exact mem_filterMap_tags _ _ (fun c u hc hg => crFn_tag _ m p t d c u hg) q hq
  have hcreatedTag : ∀ a ∈ createAux S.nextId cr, ∃ c2 ∈ levelSeq src d,
      tagOf a = some c2.id ∧ alookup (make_id_object_map D0.assets) c2.id = none := by
    intro a ha
    obtain ⟨q, hq, hmeta⟩ := mem_createAux _ cr a ha
    obtain ⟨c2, hc2, hfn, htagq⟩ := hcrTag q hq
    exact ⟨c2, hc2, (tagOf_congr a q hmeta).trans htagq, (crFn_eq _ m p t d c2 q hfn).1⟩
  have hupTag : ∀ u ∈ up, ∃ c2 ∈ levelSeq src d,
      upFn (make_id_object_map D0.assets) m p t d c2 = some u ∧ tagOf u = some c2.id := by
    intro u hu
    rw [hup] at hu
    exact mem_filterMap_tags _ _ (fun c u2 hc hg => upFn_tag _ m p t d c u2 hg) u hu
  have hunTag : ∀ A ∈ un, ∃ c2 ∈ levelSeq src d,
      unFn (make_id_object_map D0.assets) c2 = some A ∧ tagOf A = some c2.id := by
    intro A hA
    rw [hun] at hA
    exact mem_filterMap_tags _ _ (fun c u2 hc hg => unFn_tag _ hcoh c u2 hg) A hA
  -- id bounds
  have hupSmall : ∀ u ∈ up, u.id < S.nextId := by
    intro u hu
    obtain ⟨c2, hc2, hfn, _⟩ := hupTag u hu
    obtain ⟨A2, huid, _, hA2mem, _, _⟩ :=
      up_member_facts src D0 d m S p t hsrc hW4 c2 u hc2 hfn
    rw [huid]
    exact hSbound A2 hA2mem
  have hcreatedRange : ∀ a ∈ createAux S.nextId cr,
      S.nextId ≤ a.id ∧ a.id < S.nextId + cr.length :=
    fun a ha => createAux_id_bounds S.nextId cr a ha
  -- payload id uniqueness for the updates
  have hupNodup : (up.map Asset.id).Nodup := by
    rw [hup]
    apply nodup_ids_filterMap _ _ hch
    intro c1 c2 u1 u2 h1 h2 hg1 hg2 hid
    obtain ⟨A1, hu1, _, hA1mem, hA1tag, _⟩ :=
      up_member_facts src D0 d m S p t hsrc hW4 c1 u1 h1 hg1
    obtain ⟨A2, hu2, _, hA2mem, hA2tag, _⟩ :=
      up_member_facts src D0 d m S p t hsrc hW4 c2 u2 h2 hg2
    have hAeq : A1 = A2 :=
      List.inj_on_of_nodup_map hSnd hA1mem hA2mem (by rw [← hu1, ← hu2, hid])
    rw [hAeq, hA2tag] at hA1tag
    exact hchInj c1 c2 h1 h2 (Option.some_injective _ hA1tag).symm
  -- the update targets recorded in the base list
  have htagU : ∀ u ∈ up, ∀ a ∈ S.assets ++ createAux S.nextId cr,
      a.id = u.id → tagOf a = tagOf u := by
    intro u hu a ha hid
    obtain ⟨c2, hc2, hfn, hutag⟩ := hupTag u hu
    obtain ⟨A2, huid, _, hA2mem, hA2tag, _⟩ :=
      up_member_facts src D0 d m S p t hsrc hW4 c2 u hc2 hfn
    rcases List.mem_append.mp ha with hS | hC
    · have : a = A2 := List.inj_on_of_nodup_map hSnd hS hA2mem (by rw [hid, huid])
      rw [this, hA2tag, hutag]
    · have h1 := (hcreatedRange a hC).1
      have h2 := hSbound A2 hA2mem
      rw [hid, huid] at h1
      omega
  -- pairwise-distinct tags in each outcome list
  have hcrPW : cr.Pairwise (fun a b => tagOf a ≠ tagOf b) := by
    rw [hcr]
    exact pairwise_tags_filterMap _ _ hch (fun c u hc hg => crFn_tag _ m p t d c u hg)
  have hcreatedPW : (createAux S.nextId cr).Pairwise (fun a b => tagOf a ≠ tagOf b) :=
    createAux_pairwise_tags S.nextId cr hcrPW
  have hupPW : up.Pairwise (fun a b => tagOf a ≠ tagOf b) := by
    rw [hup]
    exact pairwise_tags_filterMap _ _ hch (fun c u hc hg => upFn_tag _ m p t d c u hg)
  have hunPW : un.Pairwise (fun a b => tagOf a ≠ tagOf b) := by
    rw [hun]
    exact pairwise_tags_filterMap _ _ hch (fun c u hc hg => unFn_tag _ hcoh c u hg)
  -- membership-to-children for every outcome asset
  have hOTag : ∀ a ∈ createAux S.nextId cr ++ up ++ un, ∃ c2 ∈ levelSeq src d,
      tagOf a = some c2.id := by
    intro a ha
    rcases List.mem_append.mp ha with h1 | hU
    · rcases List.mem_append.mp h1 with hC | hu
      · obtain ⟨c2, hc2, ht, _⟩ := hcreatedTag a hC
        exact ⟨c2, hc2, ht⟩
      · obtain ⟨c2, hc2, _, ht⟩ := hupTag a hu
        exact ⟨c2, hc2, ht⟩
    · obtain ⟨c2, hc2, _, ht⟩ := hunTag a hU
      exact ⟨c2, hc2, ht⟩
  -- the central per-child computation
  have hK1 : ∀ c ∈ levelSeq src d, ∃ A,
      lastTagged (createAux S.nextId cr ++ up ++ un) c.id = some A ∧
      lastTagged S2.assets c.id = some A ∧ asset_differs c A = false := by
    intro c hc
    have hnp := level_id_not_processed src hsrc d c hc
    rcases hall c hc with ⟨hl, q, hbq, hqcr⟩ | ⟨A2, hl, hdif, _⟩ | ⟨A2, hl, hdif, _⟩
    · -- create branch
      have htagq : tagOf q = some c.id :=
        tagOf_of_new_metadata q c p t (build_asset_create_ok_fields c m p t d q hbq).1
      have hcrLast : lastTagged cr c.id = some q :=
        lastTagged_eq_of_pairwise cr c.id hcrPW q hqcr htagq
      rcases createAux_lastTagged cr S.nextId c.id with ⟨h1, h2⟩ | ⟨A, q2, h1, h2, hfields⟩
      · rw [hcrLast] at h2
        exact absurd h2 Option.noConfusion
      · rw [hcrLast] at h2
        have hq2 : q = q2 := Option.some_injective _ h2
        subst hq2
        have hupNone : lastTagged up c.id = none := by
          apply lastTagged_none
          intro u hu ht
          obtain ⟨c2, hc2, hfn, hut⟩ := hupTag u hu
          rw [hut] at ht
          have : c2 = c := hchInj c2 c hc2 hc (Option.some_injective _ ht)
          subst this
          obtain ⟨A4, hA4, _, _, _⟩ := upFn_eq _ m p t d c2 u hfn
          rw [hA4] at hl
          exact Option.noConfusion hl
        have hunNone : lastTagged un c.id = none := by
          apply lastTagged_none
          intro A3 hA3 ht
          obtain ⟨c2, hc2, hfn, hut⟩ := hunTag A3 hA3
          rw [hut] at ht
          have : c2 = c := hchInj c2 c hc2 hc (Option.some_injective _ ht)
          subst this
          rw [(unFn_eq _ c2 A3 hfn).1] at hl
          exact Option.noConfusion hl
        have hO : lastTagged (createAux S.nextId cr ++ up ++ un) c.id = some A := by
          rw [lastTagged_append, lastTagged_append, hunNone, hupNone, h1]
          rfl
        have hbase : lastTagged (S.assets ++ createAux S.nextId cr) c.id = some A := by
          rw [lastTagged_append, h1]
          rfl
        have hS2last : lastTagged S2.assets c.id = some A := by
          rw [hS2]
          rw [lastTagged_applyUpdates up _ c.id htagU hupNodup, hbase]
          have hA1 := (hcreatedRange A (lastTagged_mem _ _ _ h1).1).1
          have hfind : up.find? (fun u => u.id == A.id) = none := by
            apply find?_id_eq_none
            intro u hu he
            have := hupSmall u hu
            omega
          simp only [Option.map_some', hfind]
        obtain ⟨hqm, hqe, hqn, hqd, hqs⟩ := build_asset_create_ok_fields c m p t d q hbq
        have hdifA : asset_differs c A = false := by
          apply differs_false_of_refreshed c A p t
          · rw [hfields.2.1, hqe]
          · rw [hfields.2.2.1, hqn]
          · rw [hfields.2.2.2.1, hqd]
          · rw [hfields.2.2.2.2.1, hqs]
          · rw [hfields.1, hqm]
        exact ⟨A, hO, hS2last, hdifA⟩
    · -- update branch
      have hfn : upFn (make_id_object_map D0.assets) m p t d c =
          some (build_asset_update c A2 m p t d) := by
        rw [upFn]
        simp only [hl]
        rw [if_pos hdif]
      have humem : build_asset_update c A2 m p t d ∈ up := by
        rw [hup]
        exact List.mem_filterMap.mpr ⟨c, hc, hfn⟩
      have hutag : tagOf (build_asset_update c A2 m p t d) = some c.id :=
        upFn_tag _ m p t d c _ hfn
      have hupLast : lastTagged up c.id = some (build_asset_update c A2 m p t d) :=
        lastTagged_eq_of_pairwise up c.id hupPW _ humem hutag
      have hcreatedNone : lastTagged (createAux S.nextId cr) c.id = none := by
        apply lastTagged_none
        intro a ha ht
        obtain ⟨c2, hc2, ht2, hnone⟩ := hcreatedTag a ha
        rw [ht2] at ht
        have : c2 = c := hchInj c2 c hc2 hc (Option.some_injective _ ht)
        subst this
        rw [hnone] at hl
        exact Option.noConfusion hl
      have hunNone : lastTagged un c.id = none := by
        apply lastTagged_none
        intro A3 hA3 ht
        obtain ⟨c2, hc2, hfn3, hut⟩ := hunTag A3 hA3
        rw [hut] at ht
        have : c2 = c := hchInj c2 c hc2 hc (Option.some_injective _ ht)
        subst this
        obtain ⟨hl3, hdif3⟩ := unFn_eq _ c2 A3 hfn3
        rw [hl3] at hl
        have : A3 = A2 := Option.some_injective _ hl
        subst this
        rw [hdif3] at hdif
        exact Bool.false_ne_true hdif
      have hO : lastTagged (createAux S.nextId cr ++ up ++ un) c.id =
          some (build_asset_update c A2 m p t d) := by
        rw [lastTagged_append, lastTagged_append, hunNone, hupLast]
        rfl
      have hbaseS : lastTagged S.assets c.id = some A2 := by
        rw [hW4 c.id hnp, ← alookup_make_id_object_map]
        exact hl
      have hbase : lastTagged (S.assets ++ createAux S.nextId cr) c.id = some A2 := by
        rw [lastTagged_append, hcreatedNone, hbaseS]
        rfl
      have hS2last : lastTagged S2.assets c.id =
          some (build_asset_update c A2 m p t d) := by
        rw [hS2assets]
        rw [lastTagged_applyUpdates up _ c.id htagU hupNodup, hbase]
        have huid : (build_asset_update c A2 m p t d).id = A2.id := rfl
        have hfind : up.find? (fun u => u.id == A2.id) =
            some (build_asset_update c A2 m p t d) := by
          rw [← huid]
          exact find_id_unique up hupNodup _ humem
        simp only [Option.map_some', hfind]
      have hdifU : asset_differs c (build_asset_update c A2 m p t d) = false :=
        differs_false_of_refreshed c _ p t rfl rfl rfl rfl rfl
      exact ⟨build_asset_update c A2 m p t d, hO, hS2last, hdifU⟩
    · -- unchanged branch
      have hdiff : asset_differs c A2 = false := hdif
      have hfn : unFn (make_id_object_map D0.assets) c = some A2 := by
        rw [unFn]
        simp only [hl]
        rw [if_neg (by rw [hdiff]; exact Bool.false_ne_true)]
      have hAmem : A2 ∈ un := by
        rw [hun]
        exact List.mem_filterMap.mpr ⟨c, hc, hfn⟩
      have hAtag : tagOf A2 = some c.id := unFn_tag _ hcoh c A2 hfn
      have hunLast : lastTagged un c.id = some A2 :=
        lastTagged_eq_of_pairwise un c.id hunPW A2 hAmem hAtag
      have hO : lastTagged (createAux S.nextId cr ++ up ++ un) c.id = some A2 := by
        rw [lastTagged_append, hunLast]
        rfl
      have hcreatedNone : lastTagged (createAux S.nextId cr) c.id = none := by
        apply lastTagged_none
        intro a ha ht
        obtain ⟨c2, hc2, ht2, hnone⟩ := hcreatedTag a ha
        rw [ht2] at ht
        have : c2 = c := hchInj c2 c hc2 hc (Option.some_injective _ ht)
        subst this
        rw [hnone] at hl
        exact Option.noConfusion hl
      have hbaseS : lastTagged S.assets c.id = some A2 := by
        rw [hW4 c.id hnp, ← alookup_make_id_object_map]
        exact hl
      have hbase : lastTagged (S.assets ++ createAux S.nextId cr) c.id = some A2 := by
        rw [lastTagged_append, hcreatedNone, hbaseS]
        rfl
      have hA2S : A2 ∈ S.assets := (lastTagged_mem _ _ _ hbaseS).1
      have hS2last : lastTagged S2.assets c.id = some A2 := by
        rw [hS2assets]
        rw [lastTagged_applyUpdates up _ c.id htagU hupNodup, hbase]
        have hfind : up.find? (fun u => u.id == A2.id) = none := by
          apply find?_id_eq_none
          intro u hu he
          obtain ⟨c2, hc2, hfn2, hut⟩ := hupTag u hu
          obtain ⟨A3, huid, _, hA3mem, hA3tag, _⟩ :=
            up_member_facts src D0 d m S p t hsrc hW4 c2 u hc2 hfn2
          have hA32 : A3 = A2 :=
            List.inj_on_of_nodup_map hSnd hA3mem hA2S (by rw [← huid, he])
          rw [hA32, hAtag] at hA3tag
          have : c2 = c := hchInj c2 c hc2 hc (Option.some_injective _ hA3tag).symm
          subst this
          have hupc : upFn (make_id_object_map D0.assets) m p t d c2 = none := by
            rw [upFn]
            simp only [hl]
            rw [if_neg (by rw [hdiff]; exact Bool.false_ne_true)]
          rw [hupc] at hfn2
          exact Option.noConfusion hfn2
        simp only [Option.map_some', hfind]
      exact ⟨A2, hO, hS2last, hdiff⟩
  have hK2 : ∀ k, (∀ c ∈ levelSeq src d, c.id ≠ k) →
      lastTagged (createAux S.nextId cr ++ up ++ un) k = none ∧
      lastTagged S2.assets k = lastTagged S.assets k := by
    intro k hkn
    have hONone : lastTagged (createAux S.nextId cr ++ up ++ un) k = none := by
      apply lastTagged_none
      intro a ha ht
      obtain ⟨c2, hc2, ht2⟩ := hOTag a ha
      rw [ht2] at ht
      exact hkn c2 hc2 (Option.some_injective _ ht)
    refine ⟨hONone, ?_⟩
    rw [hS2assets, lastTagged_applyUpdates up _ k htagU hupNodup, lastTagged_append]
    have hcreatedNone : lastTagged (createAux S.nextId cr) k = none := by
      apply lastTagged_none
      intro a ha ht
      obtain ⟨c2, hc2, ht2, _⟩ := hcreatedTag a ha
      rw [ht2] at ht
      exact hkn c2 hc2 (Option.some_injective _ ht)
    rw [hcreatedNone]
    cases hSk : lastTagged S.assets k with
    | none => simp [Option.orElse]
    | some B =>
      obtain ⟨hBmem, hBtag⟩ := lastTagged_mem _ _ _ hSk
      have hfind : up.find? (fun u => u.id == B.id) = none := by
        apply find?_id_eq_none
        intro u hu he
        obtain ⟨c2, hc2, hfn2, _⟩ := hupTag u hu
        obtain ⟨A3, huid, _, hA3mem, hA3tag, _⟩ :=
          up_member_facts src D0 d m S p t hsrc hW4 c2 u hc2 hfn2
        have hA3B : A3 = B := List.inj_on_of_nodup_map hSnd hA3mem hBmem (by rw [← huid, he])
        rw [hA3B, hBtag] at hA3tag
        exact hkn c2 hc2 (Option.some_injective _ hA3tag).symm
      simp only [Option.orElse, Option.map_some', hfind]
  refine ⟨⟨?_, ?_⟩, ?_, ?_, ?_, ?_⟩
  · rw [hS2assets, applyUpdates_map_id, List.map_append]
    rw [List.nodup_append]
    refine ⟨hSnd, createAux_ids_nodup _ _, ?_⟩
    intro x hx1 hx2
    obtain ⟨a, haS, rfl⟩ := List.mem_map.mp hx1
    obtain ⟨b, hbC, hid⟩ := List.mem_map.mp hx2
    have h1 := hSbound a haS
    have h2 := (hcreatedRange b hbC).1
    omega
  · intro a ha
    rw [hS2assets] at ha
    rw [hS2next]
    rcases mem_applyUpdates up _ a ha with hbase | hup2
    · rcases List.mem_append.mp hbase with hS | hC
      · have := hSbound a hS
        omega
      · have := (hcreatedRange a hC).2
        omega
    · have := hupSmall a hup2
      omega
  · rw [hS2next]
    omega
  · intro k
    rw [hm2, alookup_existing_mapping]
    constructor
    · intro hk
      cases hO : lastTagged (createAux S.nextId cr ++ up ++ un) k with
      | some a =>
        obtain ⟨haO, htagk⟩ := lastTagged_mem _ _ _ hO
        obtain ⟨c2, hc2, ht2⟩ := hOTag a haO
        rw [ht2] at htagk
        exact ⟨d, by omega, c2, hc2, Option.some_injective _ htagk⟩
      | none =>
        simp only [hO] at hk
        obtain ⟨e, he, hrest⟩ := (hdom k).mp hk
        exact ⟨e, by omega, hrest⟩
    · rintro ⟨e, he, c2, hc2, rfl⟩
      by_cases hed : e = d
      · subst hed
        obtain ⟨A, hO, _, _⟩ := hK1 c2 hc2
        simp only [hO]
        rfl
      · have hlt : e < d := by omega
        have hmk := (hdom c2.id).mpr ⟨e, hlt, c2, hc2, rfl⟩
        cases hO : lastTagged (createAux S.nextId cr ++ up ++ un) c2.id with
        | some a => simp only [hO]; rfl
        | none => simp only [hO]; exact hmk
  · intro e he c hc
    by_cases hed : e = d
    · subst hed
      obtain ⟨A, hO, hS2l, hdifA⟩ := hK1 c hc
      refine ⟨A, hS2l, hdifA, ?_⟩
      rw [hm2, alookup_existing_mapping]
      simp only [hO]
    · have hlt : e < d := by omega
      obtain ⟨A, hSl, hdifA, hml⟩ := hW3 e hlt c hc
      have hkn : ∀ c2 ∈ levelSeq src d, c2.id ≠ c.id := by
        intro c2 hc2 he2
        have hcc : c2 = c := src_id_inj src hsrc c2 c
          (mem_levelSeq_mem_src src d c2 hc2) (mem_levelSeq_mem_src src e c hc) he2
        subst hcc
        have := levelSeq_disjoint src hsrc c2 d e hc2 hc
        omega
      obtain ⟨hONone, hS2eq⟩ := hK2 c.id hkn
      refine ⟨A, by rw [hS2eq]; exact hSl, hdifA, ?_⟩
      rw [hm2, alookup_existing_mapping]
      simp only [hONone]
      exact hml
  · intro k hknp
    have hknd : ∀ c2 ∈ levelSeq src d, c2.id ≠ k := by
      intro c2 hc2 he
      exact hknp ⟨d, by omega, c2, hc2, he⟩
    have hknp0 : ¬ processedBefore src d k := by
      rintro ⟨e, he, c2, hc2, hid⟩
      exact hknp ⟨e, by omega, c2, hc2, hid⟩
    obtain ⟨_, hS2eq⟩ := hK2 k hknd
    rw [hS2eq]
    exact hW4 k hknp0

/-- At depth 0 with the empty mapping, the invariant of a run holds on any
well-formed destination state. -/
theorem run_inv_zero (src : List Asset) (D0 : Store) (hwf : StoreWF D0) :
    RunInv src D0 0 [] D0 := by
  refine ⟨hwf, Nat.le_refl _, ?_, ?_, ?_⟩
  · intro k
    constructor
    · intro hk
      exact absurd hk (by simp [alookup])
    · rintro ⟨e, he, _⟩
      exact absurd he (Nat.not_lt_zero e)
  · intro e he
    exact absurd he (Nat.not_lt_zero e)
  · intro k _
    rfl

/-- The run invariant is carried through the whole while-loop: if the loop
returns, it does so at an empty level with the invariant intact. -/
theorem loop_inv (src : List Asset) (D0 : Store) (p : String) (t : Nat)
    (hsrc : (src.map Asset.id).Nodup) :
    ∀ (fuel d : Nat) (m : List (Nat × Nat)) (S : Store) (mf : List (Nat × Nat)) (Sf : Store),
      RunInv src D0 d m S →
      create_hierarchy_loop src (make_id_object_map D0.assets) p t fuel d (levelSeq src d) m S =
        Except.ok (mf, Sf) →
      ∃ df, d ≤ df ∧ levelSeq src df = [] ∧ RunInv src D0 df mf Sf := by
  intro fuel
  induction fuel with
  | zero =>
    intro d m S mf Sf _ h
    rw [create_hierarchy_loop] at h
    exact absurd h (by simp)
  | succ f ih =>
    intro d m S mf Sf hinv h
    cases hl : levelSeq src d with
    | nil =>
      rw [hl, create_hierarchy_loop] at h
      simp only [Except.ok.injEq, Prod.mk.injEq] at h
      exact ⟨d, Nat.le_refl d, hl, by rw [← h.1, ← h.2]; exact hinv⟩
    | cons c cs =>
      rw [hl, create_hierarchy_loop] at h
      cases hstep : level_step (make_id_object_map D0.assets) p t (c :: cs) d m S with
      | error e =>
        rw [hstep] at h
        exact absurd h (by simp [except_bind_error])
      | ok pr =>
        obtain ⟨m1, S1⟩ := pr
        rw [hstep, except_bind_ok] at h
        have hnext : levelSeq src (d + 1) = find_children src ((c :: cs).map some) := by
          rw [levelSeq, hl]
        rw [← hnext] at h
        have hinv1 : RunInv src D0 (d + 1) m1 S1 :=
          run_inv_step src D0 p t hsrc d m m1 S S1 hinv (by rw [hl]; exact hstep)
        obtain ⟨df, hdf, hempty, hres⟩ := ih (d + 1) m1 S1 mf Sf hinv1 h
        exact ⟨df, by omega, hempty, hres⟩

/-- At the loop's empty terminating level the invariant specialises to:
every reachable source asset has an unchanged counterpart recorded in the
final mapping, and the mapping's domain is exactly the reachable ids. -/
theorem run_inv_final (src : List Asset) (D0 : Store) (df : Nat) (m1 : List (Nat × Nat))
    (D1 : Store) (hempty : levelSeq src df = []) (hinv : RunInv src D0 df m1 D1) :
    (∀ e, ∀ c ∈ levelSeq src e, ∃ A, lastTagged D1.assets c.id = some A ∧
      asset_differs c A = false ∧ alookup m1 c.id = some A.id) ∧
    (∀ k, (alookup m1 k).isSome = true ↔ ∃ e, ∃ c ∈ levelSeq src e, c.id = k) := by
  obtain ⟨_, _, hdom, hW3, _⟩ := hinv
  have hproc : ∀ e (c : Asset), c ∈ levelSeq src e → e < df := by
    intro e c hc
    by_contra hge
    rw [levelSeq_empty_of_le src df e (by omega) hempty] at hc
    exact absurd hc (List.not_mem_nil c)
  constructor
  · intro e c hc
    exact hW3 e (hproc e c hc) c hc
  · intro k
    rw [hdom k]
    constructor
    · rintro ⟨e, he, c, hc, hid⟩
      exact ⟨e, c, hc, hid⟩
    · rintro ⟨e, c, hc, hid⟩
      exact ⟨e, hproc e c hc, c, hc, hid⟩

/-- When every child already has an unchanged counterpart in the
destination, the classifier produces empty create and update batches. -/
theorem batch_all_unchanged (src : List Asset) (D1 : Store) (ids : List (Nat × Nat))
    (p : String) (t d : Nat)
    (hfacts : ∀ c ∈ levelSeq src d, ∃ A, lastTagged D1.assets c.id = some A ∧
      asset_differs c A = false)
    (hpm : parents_mapped (levelSeq src d) ids d) :
    make_objects_batch (levelSeq src d) (make_id_object_map D1.assets) ids p t d =
      Except.ok ([], [],
        (levelSeq src d).filterMap (unFn (make_id_object_map D1.assets))) := by
  obtain ⟨cr, up, un, hb⟩ :=
    batch_ok_of_parents_mapped (levelSeq src d) (make_id_object_map D1.assets) ids p t d hpm
  obtain ⟨hcr, hup, hun⟩ := batch_closed_form _ _ ids p t d cr up un hb
  have hcrnil : cr = [] := by
    rw [hcr, List.filterMap_eq_nil_iff]
    intro c hc
    obtain ⟨A, hA, _⟩ := hfacts c hc
    simp [crFn, alookup_make_id_object_map, hA]
  have hupnil : up = [] := by
    rw [hup, List.filterMap_eq_nil_iff]
    intro c hc
    obtain ⟨A, hA, hdif⟩ := hfacts c hc
    simp [upFn, alookup_make_id_object_map, hA, hdif]
  rw [hcrnil, hupnil, hun] at hb
  exact hb

/-- A level step with empty create and update batches writes nothing: the
store passes through and only the mapping is folded. -/
theorem level_step_unchanged (map0 : List (Nat × Asset)) (p : String) (t d : Nat)
    (children : List Asset) (ids : List (Nat × Nat)) (S : Store) (un : List Asset)
    (hb : make_objects_batch children map0 ids p t d = Except.ok ([], [], un)) :
    level_step map0 p t children d ids S = Except.ok (existing_mapping un ids, S) := by
  rw [level_step, hb, except_bind_ok]
  simp only [Store.create, Store.update, createAux, applyUpdates, List.foldl_nil,
    List.append_nil, List.nil_append, List.length_nil, Nat.add_zero]

/-- The second run's loop: starting from the converged destination state,
every level is classified all-unchanged, the store is never written, and
the rebuilt mapping agrees with the first run's mapping on the processed
ids and is empty elsewhere. -/
theorem run2_loop (src : List Asset) (D1 : Store) (m1 : List (Nat × Nat)) (p : String)
    (t : Nat) (hsrc : (src.map Asset.id).Nodup)
    (hfacts : ∀ e, ∀ c ∈ levelSeq src e, ∃ A, lastTagged D1.assets c.id = some A ∧
      asset_differs c A = false ∧ alookup m1 c.id = some A.id) :
    ∀ (j d : Nat), levelSeq src (d + j) = [] →
      ∀ ids : List (Nat × Nat),
      (∀ k, processedBefore src d k → alookup ids k = alookup m1 k) →
      (∀ k, ¬ processedBefore src d k → alookup ids k = none) →
      ∀ fuel, j < fuel →
        ∃ m2, create_hierarchy_loop src (make_id_object_map D1.assets) p t fuel d
            (levelSeq src d) ids D1 = Except.ok (m2, D1) ∧
          (∀ k, processedBefore src (d + j) k → alookup m2 k = alookup m1 k) ∧
          (∀ k, ¬ processedBefore src (d + j) k → alookup m2 k = none) := by
  intro j
  induction j with
  | zero =>
    intro d hempty ids hIa hIb fuel hf
    obtain ⟨f2, rfl⟩ : ∃ f2, fuel = f2 + 1 := ⟨fuel - 1, by omega⟩
    rw [Nat.add_zero] at hempty
    refine ⟨ids, ?_, ?_, ?_⟩
    · rw [hempty, create_hierarchy_loop]
    · intro k hk
      rw [Nat.add_zero] at hk
      exact hIa k hk
    · intro k hk
      rw [Nat.add_zero] at hk
      exact hIb k hk
  | succ i ih =>
    intro d hempty ids hIa hIb fuel hf
    obtain ⟨f2, rfl⟩ : ∃ f2, fuel = f2 + 1 := ⟨fuel - 1, by omega⟩
    have harith : (d + 1) + i = d + (i + 1) := by omega
    cases hl : levelSeq src d with
    | nil =>
      refine ⟨ids, ?_, ?_, ?_⟩
      · rw [create_hierarchy_loop]
      · rintro k ⟨e, he, c2, hc2, hid⟩
        by_cases hed : e < d
        · exact hIa k ⟨e, hed, c2, hc2, hid⟩
        · rw [levelSeq_empty_of_le src d e (by omega) hl] at hc2
          exact absurd hc2 (List.not_mem_nil c2)
      · intro k hk
        apply hIb
        rintro ⟨e, he, c2, hc2, hid⟩
        exact hk ⟨e, by omega, c2, hc2, hid⟩
    | cons c cs =>
      have hcoh := make_id_object_map_coherent D1.assets
      have hpm : parents_mapped (levelSeq src d) ids d := by
        intro hd c2 hc2
        obtain ⟨e, rfl⟩ : ∃ e, d = e + 1 := ⟨d - 1, by omega⟩
        obtain ⟨_, q, hq, hpe⟩ := (mem_levelSeq_succ src e c2).mp hc2
        rw [hpe]
        obtain ⟨A, _, _, hm1⟩ := hfacts e q hq
        have heq : alookup ids q.id = alookup m1 q.id :=
          hIa q.id ⟨e, by omega, q, hq, rfl⟩
        show (alookup ids q.id).isSome = true
        rw [heq, hm1]
        rfl
      have hb := batch_all_unchanged src D1 ids p t d
        (fun c2 hc2 => (hfacts d c2 hc2).imp (fun A hA => ⟨hA.1, hA.2.1⟩)) hpm
      have hstep := level_step_unchanged (make_id_object_map D1.assets) p t d
        (levelSeq src d) ids D1 _ hb
      have hgtags : ∀ c2 u, c2 ∈ levelSeq src d →
          unFn (make_id_object_map D1.assets) c2 = some u → tagOf u = some c2.id :=
        fun c2 u _ hg => unFn_tag _ hcoh c2 u hg
      have hch : ((levelSeq src d).map Asset.id).Nodup :=
        ((levelSeq_sublist src d).map Asset.id).nodup hsrc
      have hunPW : ((levelSeq src d).filterMap
          (unFn (make_id_object_map D1.assets))).Pairwise (fun a b => tagOf a ≠ tagOf b) :=
        pairwise_tags_filterMap _ _ hch hgtags
      have hIa2 : ∀ k, processedBefore src (d + 1) k →
          alookup (existing_mapping
            ((levelSeq src d).filterMap (unFn (make_id_object_map D1.assets))) ids) k =
          alookup m1 k := by
        rintro k ⟨e, he, c2, hc2, hid⟩
        rw [alookup_existing_mapping]
        by_cases hed : e = d
        · subst hed
          subst hid
          obtain ⟨A, hA, hdif, hm1⟩ := hfacts e c2 hc2
          have hmemun : A ∈ (levelSeq src e).filterMap
              (unFn (make_id_object_map D1.assets)) := by
            apply List.mem_filterMap.mpr
            refine ⟨c2, hc2, ?_⟩
            simp [unFn, alookup_make_id_object_map, hA, hdif]
          have htagA : tagOf A = some c2.id :=
            hcoh c2.id A (by rw [alookup_make_id_object_map]; exact hA)
          have hlast := lastTagged_eq_of_pairwise _ c2.id hunPW A hmemun htagA
          simp only [hlast]
          exact hm1.symm
        · have hlt : e < d := by omega
          have hkproc : processedBefore src d k := ⟨e, hlt, c2, hc2, hid⟩
          have hnone : lastTagged ((levelSeq src d).filterMap
              (unFn (make_id_object_map D1.assets))) k = none := by
            apply lastTagged_none
            intro a ha ht
            obtain ⟨c3, hc3, _, ht3⟩ := mem_filterMap_tags _ _ hgtags a ha
            rw [ht3] at ht
            have hk3 : c3.id = k := Option.some_injective _ ht
            exact level_id_not_processed src hsrc d c3 hc3 (hk3 ▸ hkproc)
          simp only [hnone]
          exact hIa k hkproc
      have hIb2 : ∀ k, ¬ processedBefore src (d + 1) k →
          alookup (existing_mapping
            ((levelSeq src d).filterMap (unFn (make_id_object_map D1.assets))) ids) k =
          none := by
        intro k hk
        rw [alookup_existing_mapping]
        have hnone : lastTagged ((levelSeq src d).filterMap
            (unFn (make_id_object_map D1.assets))) k = none := by
          apply lastTagged_none
          intro a ha ht
          obtain ⟨c3, hc3, _, ht3⟩ := mem_filterMap_tags _ _ hgtags a ha
          rw [ht3] at ht
          exact hk ⟨d, by omega, c3, hc3, Option.some_injective _ ht⟩
        simp only [hnone]
        apply hIb
        rintro ⟨e, he, c3, hc3, hid⟩
        exact hk ⟨e, by omega, c3, hc3, hid⟩
      have hempty2 : levelSeq src ((d + 1) + i) = [] := by
        rw [harith]
        exact hempty
      obtain ⟨m2, hrun, hFa, hFb⟩ := ih (d + 1) hempty2
        (existing_mapping
          ((levelSeq src d).filterMap (unFn (make_id_object_map D1.assets))) ids)
        hIa2 hIb2 f2 (by omega)
      have hnext : levelSeq src (d + 1) = find_children src ((c :: cs).map some) := by
        rw [levelSeq, hl]
      refine ⟨m2, ?_, ?_, ?_⟩
      · rw [hl] at hstep
        rw [create_hierarchy_loop, hstep, except_bind_ok, ← hnext, ← hl]
        exact hrun
      · intro k hk
        apply hFa
        rw [harith]
        exact hk
      · intro k hk
        apply hFb
        rw [harith]
        exact hk

/-- With both deletion flags off, `replicate` reduces to `create_hierarchy`
on the destination snapshot. -/
theorem replicate_no_deletes (src : List Asset) (D : Store) (p : String) (t : Nat) :
    replicate src D p t false false = create_hierarchy src D.assets p t D := by
  rw [replicate]
  cases h : create_hierarchy src D.assets p t D with
  | error e => rfl
  | ok pr =>
    obtain ⟨m, d1⟩ := pr
    rfl

/-- C4: idempotence of `replicate` (deletion flags off).  For every source
list with unique internal ids and every well-formed destination state, the
first run succeeds and converges the destination to some state `D1`; a
second run over `D1` — with a possibly different run timestamp — succeeds,
creates no assets, writes nothing to the store (it returns `D1` itself,
every record being classified unchanged since the equality check excludes
the replication-timestamp key), and rebuilds the same Id Mapping. -/
theorem replicate_idempotent (src : List Asset) (D0 : Store) (p : String) (t1 t2 : Nat)
    (hsrc : (src.map Asset.id).Nodup) (hwf0 : StoreWF D0) :
    ∃ m1 D1 m2,
      replicate src D0 p t1 false false = Except.ok (m1, D1) ∧
      replicate src D1 p t2 false false = Except.ok (m2, D1) ∧
      ∀ k, alookup m2 k = alookup m1 k := by
  obtain ⟨e, hle, hempty⟩ := exists_empty_level src hsrc
  have h0 : levelSeq src (0 + e) = [] := by rw [Nat.zero_add]; exact hempty
  obtain ⟨res1, hres1⟩ := loop_runs src (make_id_object_map D0.assets) p t1
    (make_id_object_map_coherent D0.assets) e 0 h0 [] D0 (fun hcon => absurd hcon (by decide))
  obtain ⟨m1, D1⟩ := res1
  have h1 : create_hierarchy_loop src (make_id_object_map D0.assets) p t1 (src.length + 1) 0
      (levelSeq src 0) [] D0 = Except.ok (m1, D1) := hres1 (src.length + 1) (by omega)
  obtain ⟨df, _, hemptydf, hinv1⟩ := loop_inv src D0 p t1 hsrc (src.length + 1) 0 [] D0 m1 D1
    (run_inv_zero src D0 hwf0) h1
  obtain ⟨hfacts, hdomm1⟩ := run_inv_final src D0 df m1 D1 hemptydf hinv1
  obtain ⟨m2, hrun2, hFa, hFb⟩ := run2_loop src D1 m1 p t2 hsrc hfacts e 0 h0 []
    (by
      rintro k ⟨e2, he2, -⟩
      exact absurd he2 (Nat.not_lt_zero e2))
    (fun k _ => rfl) (src.length + 1) (by omega)
  refine ⟨m1, D1, m2, ?_, ?_, ?_⟩
  · rw [replicate_no_deletes, create_hierarchy]
    exact h1
  · rw [replicate_no_deletes, create_hierarchy]
    exact hrun2
  · intro k
    by_cases hP : ∃ e2, ∃ c ∈ levelSeq src e2, c.id = k
    · obtain ⟨e2, c, hc, hid⟩ := hP
      have he2 : e2 < e := by
        by_contra hge
        rw [levelSeq_empty_of_le src e e2 (by omega) hempty] at hc
        exact absurd hc (List.not_mem_nil c)
      exact hFa k ⟨e2, by omega, c, hc, hid⟩
    · have h2 := hFb k (by
        rintro ⟨e2, he2, c, hc, hid⟩
        exact hP ⟨e2, c, hc, hid⟩)
      have h1n : alookup m1 k = none := by
        cases hm : alookup m1 k with
        | none => rfl
        | some v => exact absurd ((hdomm1 k).mp (by rw [hm]; rfl)) hP
      rw [h2, h1n]

/-- Witness for C4: a root/child source pair replicated twice (run
timestamps 7 and 9) into an initially empty destination. -/
theorem replicate_idempotent_witness :
    (([fixSrc1, fixSrc2].map Asset.id).Nodup ∧
      StoreWF { assets := [], nextId := 100 }) ∧
    ∃ m1 D1 m2,
      replicate [fixSrc1, fixSrc2] { assets := [], nextId := 100 } "proj" 7 false false =
        Except.ok (m1, D1) ∧
      replicate [fixSrc1, fixSrc2] D1 "proj" 9 false false = Except.ok (m2, D1) ∧
      ∀ k, alookup m2 k = alookup m1 k :=
  ⟨⟨by decide, ⟨by decide, by decide⟩⟩,
    replicate_idempotent [fixSrc1, fixSrc2] { assets := [], nextId := 100 } "proj" 7 9
      (by decide) ⟨by decide, by decide⟩⟩

end Replicator
